import Mathlib

/-! Dense matrix kernel (`src/c/matrix.c`)

A shallow embedding of the three C functions `dot`, `add` and `sub`.

* A `double *` argument is a pointer to a caller-owned buffer.  Memory is a
  list of buffers and a pointer is the position of its buffer in that list, so
  two arguments alias exactly when they are the same number.
* Every read and every write is bounds-checked: an access outside the buffer
  is undefined behaviour in C and makes the embedded function return `none`.
* `int` is 32 bits wide.  The dimensions, loop counters and indices are
  non-negative and are natural numbers; every index expression
  `row * nb_columns + col` is computed by `cellIndex`, which returns `none`
  (signed overflow, undefined behaviour) as soon as the product or the sum
  exceeds `INT_MAX`.  The theorems take the dimensions to be `int` values,
  that is at most `INT_MAX`.
* The element type `double` is a type parameter carrying the arithmetic the
  code uses.  Rounding is not modelled: the general theorems are stated for
  exact arithmetic (a semiring, a group or a ring).  The type `Dbl` models the
  special values of a `double` (infinities and NaN) next to the integers.
-/

namespace MatrixKernel

/-- The largest value of the 32-bit `int` of C. -/
def INT_MAX : Nat := 2147483647

/-- The `int` product of two non-negative `int` values: `none` on signed
overflow. -/
def intMul (x y : Nat) : Option Nat :=
  if x * y ≤ INT_MAX then some (x * y) else none

/-- The `int` sum of two non-negative `int` values: `none` on signed
overflow. -/
def intAdd (x y : Nat) : Option Nat :=
  if x + y ≤ INT_MAX then some (x + y) else none

/-- The index expression `row * nb_columns + col` of `matrix.c`, computed in
`int`: the product first, then the sum. -/
def cellIndex (row nb_columns col : Nat) : Option Nat :=
  match intMul row nb_columns with
  | some p => intAdd p col
  | none => none

/-- Memory: the buffers the caller owns, addressed by position. -/
abbrev Mem (α : Type) := List (List α)

/-- The read `p[i]`: `none` when `p` is no buffer or `i` is out of bounds. -/
def load {α : Type} (mem : Mem α) (p i : Nat) : Option α :=
  match mem[p]? with
  | some buf => buf[i]?
  | none => none

/-- The write `p[i] = v`: `none` when `p` is no buffer or `i` is out of bounds. -/
def store {α : Type} (mem : Mem α) (p i : Nat) (v : α) : Option (Mem α) :=
  match mem[p]? with
  | some buf => if i < buf.length then some (mem.set p (buf.set i v)) else none
  | none => none

/-- The read `p[row * nb_columns + col]`, the index being computed in `int`. -/
def loadAt {α : Type} (mem : Mem α) (p row nb_columns col : Nat) : Option α :=
  match cellIndex row nb_columns col with
  | some i => load mem p i
  | none => none

/-- The write `p[row * nb_columns + col] = v`, the index being computed in
`int`. -/
def storeAt {α : Type} (mem : Mem α) (p row nb_columns col : Nat) (v : α) :
    Option (Mem α) :=
  match cellIndex row nb_columns col with
  | some i => store mem p i v
  | none => none

/-- The loop `for (i = 0; i < n; i++) body`, threading the state `σ`;
an iteration that fails makes the loop fail. -/
def forLoop {σ : Type} (body : Nat → σ → Option σ) : Nat → σ → Option σ
  | 0, s => some s
  | n + 1, s =>
    match forLoop body n s with
    | some s1 => body n s1
    | none => none

/-- The function `dot` of `matrix.c` (lines 10-20). -/
def dot {α : Type} [Zero α] [Add α] [Mul α] (mem : Mem α)
    (m1 m1_nb_rows m1_nb_columns m2 m2_nb_rows m2_nb_columns res : Nat) :
    Option (Mem α) :=
  forLoop (fun col mem1 =>
    forLoop (fun row mem2 =>
      match forLoop (fun k tmp =>
          match loadAt mem2 m1 row m1_nb_columns k,
                loadAt mem2 m2 k m2_nb_columns col with
          | some x, some y => some (tmp + x * y)
          | _, _ => none) m2_nb_rows (0 : α) with
      | some tmp => storeAt mem2 res row m2_nb_columns col tmp
      | none => none) m1_nb_rows mem1) m2_nb_columns mem

/-- The function `add` of `matrix.c` (lines 22-29). -/
def add {α : Type} [Add α] (mem : Mem α) (m1 nb_rows nb_columns m2 res : Nat) :
    Option (Mem α) :=
  forLoop (fun col mem1 =>
    forLoop (fun row mem2 =>
      match loadAt mem2 m1 row nb_columns col,
            loadAt mem2 m2 row nb_columns col with
      | some x, some y => storeAt mem2 res row nb_columns col (x + y)
      | _, _ => none) nb_rows mem1) nb_columns mem

/-- The function `sub` of `matrix.c` (lines 31-38). -/
def sub {α : Type} [Sub α] (mem : Mem α) (m1 nb_rows nb_columns m2 res : Nat) :
    Option (Mem α) :=
  forLoop (fun col mem1 =>
    forLoop (fun row mem2 =>
      match loadAt mem2 m1 row nb_columns col,
            loadAt mem2 m2 row nb_columns col with
      | some x, some y => storeAt mem2 res row nb_columns col (x - y)
      | _, _ => none) nb_rows mem1) nb_columns mem

/-- The cells of the output already written when the loops of `matrix.c` stand
at row `R` of column `C`: all of the columns before `C`, and the rows before
`R` of column `C`. -/
def doneAt (R C row col : Nat) : Prop := col < C ∨ (col = C ∧ row < R)

/-- State of the memory while an output matrix is being filled: the other
buffers are as in `mem0`, and in the buffer `res` the cells marked `done`
hold `val row col` and all the other cells what they held in `mem0`. -/
def Filled {α : Type} (mem0 mem : Mem α) (res rows cols : Nat)
    (val : Nat → Nat → α) (done : Nat → Nat → Prop) : Prop :=
  (∀ p, p ≠ res → mem[p]? = mem0[p]?) ∧
  ∃ r0 r, mem0[res]? = some r0 ∧ mem[res]? = some r ∧ rows * cols ≤ r0.length ∧
    r.length = r0.length ∧
    (∀ i, rows * cols ≤ i → r[i]? = r0[i]?) ∧
    (∀ row col, row < rows → col < cols →
      (done row col → r[row * cols + col]? = some (val row col)) ∧
      (¬ done row col → r[row * cols + col]? = r0[row * cols + col]?))

/-- The call `dot(a, a_rows, a_cols, b, b_rows, b_cols, res)` made on three
separate buffers: what the buffer `res` holds after the call. -/
def dotBuf {α : Type} [Zero α] [Add α] [Mul α] (a : List α) (a_rows a_cols : Nat)
    (b : List α) (b_rows b_cols : Nat) (res : List α) : Option (List α) :=
  match dot [a, b, res] 0 a_rows a_cols 1 b_rows b_cols 2 with
  | some mem => mem[2]?
  | none => none

/-- The call `add(a, rows, cols, b, res)` made on three separate buffers: what
the buffer `res` holds after the call. -/
def addBuf {α : Type} [Add α] (a : List α) (rows cols : Nat) (b res : List α) :
    Option (List α) :=
  match add [a, b, res] 0 rows cols 1 2 with
  | some mem => mem[2]?
  | none => none

/-- The call `sub(a, rows, cols, b, res)` made on three separate buffers: what
the buffer `res` holds after the call. -/
def subBuf {α : Type} [Sub α] (a : List α) (rows cols : Nat) (b res : List α) :
    Option (List α) :=
  match sub [a, b, res] 0 rows cols 1 2 with
  | some mem => mem[2]?
  | none => none

/-- The `n` by `n` identity matrix as a row-major buffer: 1 on the diagonal,
0 elsewhere. -/
def identity {α : Type} [Zero α] [One α] (n : Nat) : List α :=
  (List.range (n * n)).map (fun i => if i / n = i % n then 1 else 0)

/-- The all-zero matrix of the given shape as a row-major buffer. -/
def zeros {α : Type} [Zero α] (rows cols : Nat) : List α :=
  List.replicate (rows * cols) 0

/-- What writes to the cells below `N` of the buffer `res` preserve: every
other buffer is as in `mem`, and the buffer `res` keeps its length and its
cells from `N` on. -/
def FrameOf {α : Type} (N res : Nat) (mem mem' : Mem α) : Prop :=
  (∀ p, p ≠ res → mem'[p]? = mem[p]?) ∧
  (∀ r0, mem[res]? = some r0 →
    ∃ out, mem'[res]? = some out ∧ out.length = r0.length ∧
      ∀ i, N ≤ i → out[i]? = r0[i]?)

/-- The traversal the specification allows instead of the one of `dot`: rows
outermost, then output columns, with the same reduction over `k` innermost. -/
def dotRowOuter {α : Type} [Zero α] [Add α] [Mul α] (mem : Mem α)
    (m1 m1_nb_rows m1_nb_columns m2 m2_nb_rows m2_nb_columns res : Nat) :
    Option (Mem α) :=
  forLoop (fun row mem1 =>
    forLoop (fun col mem2 =>
      match forLoop (fun k tmp =>
          match loadAt mem2 m1 row m1_nb_columns k,
                loadAt mem2 m2 k m2_nb_columns col with
          | some x, some y => some (tmp + x * y)
          | _, _ => none) m2_nb_rows (0 : α) with
      | some tmp => storeAt mem2 res row m2_nb_columns col tmp
      | none => none) m2_nb_columns mem1) m1_nb_rows mem

/-- The cells already written when the row-outer traversal stands at column
`C` of row `R`. -/
def doneRows (R C row col : Nat) : Prop := row < R ∨ (row = R ∧ col < C)

/-- The values of a `double` on which the special cases of IEEE-754 show: the
integers (exact in a `double` below `2^53`; the two signed zeros are one
value), the two infinities and NaN. -/
inductive Dbl where
  | fin (z : Int)
  | pinf
  | ninf
  | nan
  deriving DecidableEq

/-- IEEE-754 negation on `Dbl`. -/
def Dbl.negate : Dbl → Dbl
  | .fin z => .fin (-z)
  | .pinf => .ninf
  | .ninf => .pinf
  | .nan => .nan

/-- IEEE-754 addition on `Dbl`: NaN propagates and `inf + (-inf)` is NaN. -/
def Dbl.plus : Dbl → Dbl → Dbl
  | .nan, _ => .nan
  | _, .nan => .nan
  | .fin a, .fin b => .fin (a + b)
  | .pinf, .ninf => .nan
  | .ninf, .pinf => .nan
  | .pinf, _ => .pinf
  | _, .pinf => .pinf
  | .ninf, _ => .ninf
  | _, .ninf => .ninf

/-- The product of an infinity and a finite value: NaN for 0, else the
infinity with the sign of the product. -/
def Dbl.scaleInf (positive : Bool) (a : Int) : Dbl :=
  if a = 0 then .nan
  else if (0 < a) = positive then .pinf
  else .ninf

/-- IEEE-754 multiplication on `Dbl`: NaN propagates and `inf * 0` is NaN. -/
def Dbl.times : Dbl → Dbl → Dbl
  | .nan, _ => .nan
  | _, .nan => .nan
  | .fin a, .fin b => .fin (a * b)
  | .fin a, .pinf => Dbl.scaleInf true a
  | .fin a, .ninf => Dbl.scaleInf false a
  | .pinf, .fin b => Dbl.scaleInf true b
  | .ninf, .fin b => Dbl.scaleInf false b
  | .pinf, .pinf => .pinf
  | .ninf, .ninf => .pinf
  | .pinf, .ninf => .ninf
  | .ninf, .pinf => .ninf

/-- IEEE-754 subtraction on `Dbl`: `inf - inf` is NaN. -/
def Dbl.minus (x y : Dbl) : Dbl := Dbl.plus x (Dbl.negate y)

instance : Zero Dbl := ⟨Dbl.fin 0⟩

instance : One Dbl := ⟨Dbl.fin 1⟩

instance : Add Dbl := ⟨Dbl.plus⟩

instance : Mul Dbl := ⟨Dbl.times⟩

instance : Sub Dbl := ⟨Dbl.minus⟩

/-! ## Index arithmetic in `int` -/

/-- An index that fits in `int` is computed without overflow. -/
theorem cellIndex_of_le {row n col : Nat} (h : row * n + col ≤ INT_MAX) :
    cellIndex row n col = some (row * n + col) := by
  have h1 : row * n ≤ INT_MAX := by omega
  simp [cellIndex, intMul, intAdd, h1, h]

/-- An index that does not fit in `int` overflows. -/
theorem cellIndex_of_gt {row n col : Nat} (h : INT_MAX < row * n + col) :
    cellIndex row n col = none := by
  unfold cellIndex intMul
  split
  · rename_i p hp
    split at hp
    · simp only [Option.some.injEq] at hp
      subst hp
      simp [intAdd]
      omega
    · exact absurd hp (by simp)
  · rfl

/-- The value of an index computed without overflow. -/
theorem cellIndex_some {row n col i : Nat} (h : cellIndex row n col = some i) :
    i = row * n + col := by
  by_cases hle : row * n + col ≤ INT_MAX
  · rw [cellIndex_of_le hle] at h
    simp only [Option.some.injEq] at h
    exact h.symm
  · rw [cellIndex_of_gt (by omega)] at h
    exact absurd h (by simp)

/-- A read at an index that fits in `int`. -/
theorem loadAt_eq_load {α : Type} (mem : Mem α) (p : Nat) {row n col : Nat}
    (h : row * n + col ≤ INT_MAX) :
    loadAt mem p row n col = load mem p (row * n + col) := by
  simp [loadAt, cellIndex_of_le h]

/-- A write at an index that fits in `int`. -/
theorem storeAt_eq_store {α : Type} (mem : Mem α) (p : Nat) {row n col : Nat} (v : α)
    (h : row * n + col ≤ INT_MAX) :
    storeAt mem p row n col v = store mem p (row * n + col) v := by
  simp [storeAt, cellIndex_of_le h]

/-- A write that returns was made at the index `row * n + col`. -/
theorem storeAt_some {α : Type} {mem mem' : Mem α} {p row n col : Nat} {v : α}
    (h : storeAt mem p row n col v = some mem') :
    store mem p (row * n + col) v = some mem' := by
  unfold storeAt at h
  split at h
  · rename_i i hi
    rw [← cellIndex_some hi]
    exact h
  · exact absurd h (by simp)

/-- A read fails when the index overflows or lies outside the buffer. -/
theorem loadAt_none {α : Type} {mem : Mem α} {p row n col : Nat}
    (h : load mem p (row * n + col) = none) : loadAt mem p row n col = none := by
  unfold loadAt
  split
  · rename_i i hi
    rw [cellIndex_some hi]
    exact h
  · rfl

/-- The last cell of a shape of more than `INT_MAX + 1` cells has an index
that overflows. -/
theorem last_index_gt {rows cols : Nat} (h : INT_MAX + 1 < rows * cols) :
    0 < rows ∧ 0 < cols ∧ INT_MAX < (rows - 1) * cols + (cols - 1) := by
  have hr : 0 < rows := by
    rcases Nat.eq_zero_or_pos rows with e | e
    · subst e; simp at h
    · exact e
  have hc : 0 < cols := by
    rcases Nat.eq_zero_or_pos cols with e | e
    · subst e; simp at h
    · exact e
  refine ⟨hr, hc, ?_⟩
  obtain ⟨r, rfl⟩ : ∃ r, rows = r + 1 := ⟨rows - 1, by omega⟩
  have e : (r + 1) * cols = r * cols + cols := Nat.succ_mul r cols
  simp only [Nat.add_sub_cancel]
  omega

/-! ## Loops, indices and the fill invariant -/

/-- Invariant rule for `forLoop`: the loop terminates with a state and the
invariant holds at every bound reached. -/
theorem forLoop_inv {σ : Type} (body : Nat → σ → Option σ) (I : Nat → σ → Prop)
    (n : Nat) (s : σ) (h0 : I 0 s)
    (hstep : ∀ i s1, i < n → I i s1 → ∃ s2, body i s1 = some s2 ∧ I (i + 1) s2) :
    ∃ s', forLoop body n s = some s' ∧ I n s' := by
  induction n with
  | zero => exact ⟨s, rfl, h0⟩
  | succ n ih =>
    obtain ⟨s1, hs1, hI⟩ := ih (fun i s1 hi => hstep i s1 (Nat.lt_succ_of_lt hi))
    obtain ⟨s2, hs2, hI2⟩ := hstep n s1 (Nat.lt_succ_self n) hI
    exact ⟨s2, by simp [forLoop, hs1, hs2], hI2⟩

/-- A row-major index of an in-range cell lies inside the matrix. -/
theorem idx_lt {rows cols r c : Nat} (hr : r < rows) (hc : c < cols) :
    r * cols + c < rows * cols := by
  have h1 : (r + 1) * cols ≤ rows * cols := Nat.mul_le_mul_right cols hr
  have h2 : (r + 1) * cols = r * cols + cols := Nat.succ_mul r cols
  omega

/-- Row-major indexing is injective on in-range columns. -/
theorem idx_inj {cols r c r' c' : Nat} (hc : c < cols) (hc' : c' < cols)
    (h : r * cols + c = r' * cols + c') : r = r' ∧ c = c' := by
  have hpos : 0 < cols := by omega
  have e1 : (r * cols + c) / cols = r := by
    rw [Nat.add_comm, Nat.add_mul_div_right _ _ hpos, Nat.div_eq_of_lt hc, Nat.zero_add]
  have e2 : (r' * cols + c') / cols = r' := by
    rw [Nat.add_comm, Nat.add_mul_div_right _ _ hpos, Nat.div_eq_of_lt hc', Nat.zero_add]
  have hr : r = r' := by rw [← e1, ← e2, h]
  subst hr
  exact ⟨rfl, by omega⟩

/-- Every index below `rows * cols` is the row-major index of a cell. -/
theorem idx_decode {rows cols i : Nat} (hi : i < rows * cols) :
    i / cols < rows ∧ i % cols < cols ∧ i / cols * cols + i % cols = i := by
  have hpos : 0 < cols := by
    rcases Nat.eq_zero_or_pos cols with h | h
    · subst h; simp at hi
    · exact h
  refine ⟨?_, Nat.mod_lt _ hpos, ?_⟩
  · exact (Nat.div_lt_iff_lt_mul hpos).2 hi
  · rw [Nat.mul_comm]; exact Nat.div_add_mod i cols

/-- At the start nothing is written. -/
theorem Filled.init {α : Type} {mem0 : Mem α} {res rows cols : Nat} {r0 : List α}
    (val : Nat → Nat → α) (h0 : mem0[res]? = some r0) (hlen : rows * cols ≤ r0.length) :
    Filled mem0 mem0 res rows cols val (doneAt 0 0) := by
  refine ⟨fun _ _ => rfl, r0, r0, h0, h0, hlen, rfl, fun _ _ => rfl, ?_⟩
  intro row col _ _
  refine ⟨fun h => ?_, fun _ => rfl⟩
  simp [doneAt] at h

/-- The invariant only looks at `done` on the cells of the matrix. -/
theorem Filled.congr {α : Type} {mem0 mem : Mem α} {res rows cols : Nat}
    {val : Nat → Nat → α} {done done' : Nat → Nat → Prop}
    (h : Filled mem0 mem res rows cols val done)
    (hd : ∀ row col, row < rows → col < cols → (done row col ↔ done' row col)) :
    Filled mem0 mem res rows cols val done' := by
  obtain ⟨hf, r0, r, h0, h1, hlen, hl, hout, hin⟩ := h
  refine ⟨hf, r0, r, h0, h1, hlen, hl, hout, ?_⟩
  intro row col hr hc
  have := hin row col hr hc
  rw [hd row col hr hc] at this
  exact this

/-- A buffer other than the output reads as it did at the start. -/
theorem Filled.load_frame {α : Type} {mem0 mem : Mem α} {res rows cols : Nat}
    {val : Nat → Nat → α} {done : Nat → Nat → Prop}
    (h : Filled mem0 mem res rows cols val done) {p : Nat} (hp : p ≠ res) (i : Nat) :
    load mem p i = load mem0 p i := by
  simp only [load, h.1 p hp]

/-- A cell not yet written reads as it did at the start, in every buffer
(the output buffer included). -/
theorem Filled.load_undone {α : Type} {mem0 mem : Mem α} {res rows cols : Nat}
    {val : Nat → Nat → α} {done : Nat → Nat → Prop}
    (h : Filled mem0 mem res rows cols val done) {row col : Nat}
    (hr : row < rows) (hc : col < cols) (hd : ¬ done row col) (p : Nat) :
    load mem p (row * cols + col) = load mem0 p (row * cols + col) := by
  by_cases hp : p = res
  · obtain ⟨_, r0, r, h0, h1, _, _, _, hin⟩ := h
    subst hp
    simp only [load, h0, h1]
    exact (hin row col hr hc).2 hd
  · exact h.load_frame hp _

/-- Writing `val R C` to the cell `(R, C)` succeeds and marks it done. -/
theorem Filled.store {α : Type} {mem0 mem : Mem α} {res rows cols : Nat}
    {val : Nat → Nat → α} {done : Nat → Nat → Prop}
    (h : Filled mem0 mem res rows cols val done) {R C : Nat}
    (hR : R < rows) (hC : C < cols) :
    ∃ mem', store mem res (R * cols + C) (val R C) = some mem' ∧
      Filled mem0 mem' res rows cols val (fun row col => done row col ∨ (row = R ∧ col = C)) := by
  obtain ⟨hf, r0, r, h0, h1, hlen, hl, hout, hin⟩ := h
  have hidx : R * cols + C < rows * cols := idx_lt hR hC
  have hlt : R * cols + C < r.length := by omega
  have hres : res < mem.length := by
    rcases List.getElem?_eq_some_iff.1 h1 with ⟨hh, _⟩
    exact hh
  refine ⟨mem.set res (r.set (R * cols + C) (val R C)), by simp [MatrixKernel.store, h1, hlt], ?_⟩
  refine ⟨?_, r0, r.set (R * cols + C) (val R C), h0, ?_, hlen, ?_, ?_, ?_⟩
  · intro p hp
    rw [List.getElem?_set_ne (Ne.symm hp)]
    exact hf p hp
  · rw [List.getElem?_set_self hres]
  · simp [hl]
  · intro i hi
    rw [List.getElem?_set_ne (by omega)]
    exact hout i hi
  · intro row col hr hc
    by_cases he : row = R ∧ col = C
    · obtain ⟨e1, e2⟩ := he
      subst e1; subst e2
      refine ⟨fun _ => List.getElem?_set_self hlt, fun hn => ?_⟩
      exact absurd (Or.inr ⟨rfl, rfl⟩) hn
    · have hne : R * cols + C ≠ row * cols + col := by
        intro heq
        have := idx_inj hC hc heq
        exact he ⟨this.1.symm, this.2.symm⟩
      rw [List.getElem?_set_ne hne]
      refine ⟨fun hd => ?_, fun hn => ?_⟩
      · rcases hd with hd | hd
        · exact (hin row col hr hc).1 hd
        · exact absurd hd he
      · exact (hin row col hr hc).2 (fun hd => hn (Or.inl hd))

/-- The two nested loops of `matrix.c` (columns outside, rows inside) fill the
whole output matrix when each step writes `val row col` to its cell. -/
theorem fill_loops {α : Type} {mem0 : Mem α} {res rows cols : Nat} {r0 : List α}
    (val : Nat → Nat → α) (step : Nat → Nat → Mem α → Option (Mem α))
    (h0 : mem0[res]? = some r0) (hlen : rows * cols ≤ r0.length)
    (hstep : ∀ R C mem, R < rows → C < cols →
      Filled mem0 mem res rows cols val (doneAt R C) →
      step R C mem = store mem res (R * cols + C) (val R C)) :
    ∃ mem', forLoop (fun col mem1 => forLoop (fun row mem2 => step row col mem2) rows mem1)
        cols mem0 = some mem' ∧
      Filled mem0 mem' res rows cols val (fun _ _ => True) := by
  obtain ⟨mem', hrun, hI⟩ := forLoop_inv
    (fun col mem1 => forLoop (fun row mem2 => step row col mem2) rows mem1)
    (fun C mem => Filled mem0 mem res rows cols val (doneAt 0 C)) cols mem0
    (Filled.init val h0 hlen) (by
      intro C mem1 hC hI
      obtain ⟨mem2, hrun2, hI2⟩ := forLoop_inv (fun row mem2 => step row C mem2)
        (fun R mem => Filled mem0 mem res rows cols val (doneAt R C)) rows mem1 hI (by
          intro R mem2 hR hI2
          obtain ⟨mem3, hst, hI3⟩ := hI2.store hR hC
          refine ⟨mem3, (hstep R C mem2 hR hC hI2).trans hst, hI3.congr ?_⟩
          intro row col _ _
          simp only [doneAt]
          constructor
          · rintro ((h | h) | h)
            · exact Or.inl h
            · exact Or.inr ⟨h.1, by omega⟩
            · exact Or.inr ⟨h.2, by omega⟩
          · rintro (h | h)
            · exact Or.inl (Or.inl h)
            · by_cases e : row = R
              · exact Or.inr ⟨e, h.1⟩
              · exact Or.inl (Or.inr ⟨h.1, by omega⟩))
      refine ⟨mem2, hrun2, hI2.congr ?_⟩
      intro row col hr _
      simp only [doneAt]
      constructor
      · rintro (h | h)
        · omega
        · omega
      · intro h
        rcases h with h | h
        · by_cases e : col = C
          · exact Or.inr ⟨e, hr⟩
          · exact Or.inl (by omega)
        · omega)
  refine ⟨mem', hrun, hI.congr ?_⟩
  intro row col _ hc
  simp only [doneAt]
  constructor
  · intro _; trivial
  · intro _; exact Or.inl hc

/-- An in-bounds read returns the cell of the buffer. -/
theorem load_eq_getD {α : Type} [Zero α] {mem : Mem α} {p i : Nat} {buf : List α}
    (hp : mem[p]? = some buf) (hi : i < buf.length) :
    load mem p i = some (buf.getD i 0) := by
  simp [load, hp, List.getElem?_eq_getElem hi]

/-- The reduction loop of `dot` returns the sum of the products it reads. -/
theorem forLoop_sum {α : Type} [Semiring α] (lx ly : Nat → Option α) (x y : Nat → α)
    (n : Nat) (h : ∀ k, k < n → lx k = some (x k) ∧ ly k = some (y k)) :
    forLoop (fun k tmp =>
        match lx k, ly k with
        | some u, some v => some (tmp + u * v)
        | _, _ => none) n (0 : α) = some (∑ k in Finset.range n, x k * y k) := by
  induction n with
  | zero => simp [forLoop]
  | succ n ih =>
    have ih2 := ih (fun k hk => h k (Nat.lt_succ_of_lt hk))
    obtain ⟨hx, hy⟩ := h n (Nat.lt_succ_self n)
    simp only [forLoop, ih2, hx, hy, Finset.sum_range_succ]

/-- The loops of `dot` fill the output with the entries of the matrix product,
when the output is neither of the inputs and no index overflows. -/
theorem dot_filled {α : Type} [Semiring α] (mem : Mem α)
    (m1 a_rows a_cols m2 b_rows b_cols res : Nat) (a b r0 : List α)
    (h1 : m1 ≠ res) (h2 : m2 ≠ res)
    (ha : mem[m1]? = some a) (hb : mem[m2]? = some b) (hr : mem[res]? = some r0)
    (hdim : a_cols = b_rows)
    (hla : a_rows * a_cols ≤ a.length) (hlb : b_rows * b_cols ≤ b.length)
    (hlr : a_rows * b_cols ≤ r0.length)
    (hsa : a_rows * a_cols ≤ INT_MAX) (hsb : b_rows * b_cols ≤ INT_MAX)
    (hsr : a_rows * b_cols ≤ INT_MAX) :
    ∃ mem', dot mem m1 a_rows a_cols m2 b_rows b_cols res = some mem' ∧
      Filled mem mem' res a_rows b_cols
        (fun r c => ∑ k in Finset.range b_rows,
          a.getD (r * a_cols + k) 0 * b.getD (k * b_cols + c) 0) (fun _ _ => True) := by
  unfold dot
  apply fill_loops _ _ hr hlr
  intro R C mem2 hR hC hI
  have hs := forLoop_sum (fun k => loadAt mem2 m1 R a_cols k)
    (fun k => loadAt mem2 m2 k b_cols C)
    (fun k => a.getD (R * a_cols + k) 0) (fun k => b.getD (k * b_cols + C) 0) b_rows (by
      intro k hk
      have hia : R * a_cols + k < a_rows * a_cols := idx_lt hR (by omega)
      have hib : k * b_cols + C < b_rows * b_cols := idx_lt hk hC
      show loadAt mem2 m1 R a_cols k = some (a.getD (R * a_cols + k) 0) ∧
        loadAt mem2 m2 k b_cols C = some (b.getD (k * b_cols + C) 0)
      rw [loadAt_eq_load _ _ (by omega), loadAt_eq_load _ _ (by omega),
        hI.load_frame h1, hI.load_frame h2]
      exact ⟨load_eq_getD ha (by omega), load_eq_getD hb (by omega)⟩)
  have hir : R * b_cols + C < a_rows * b_cols := idx_lt hR hC
  simp only [hs, storeAt_eq_store _ _ _ (show R * b_cols + C ≤ INT_MAX by omega)]

/-- The loops of `add` fill the output with the cellwise sums of the values the
inputs held at the call, whichever of the three buffers coincide, when no
index overflows. -/
theorem add_filled {α : Type} [Zero α] [Add α] (mem : Mem α)
    (m1 rows cols m2 res : Nat) (a b r0 : List α)
    (ha : mem[m1]? = some a) (hb : mem[m2]? = some b) (hr : mem[res]? = some r0)
    (hla : rows * cols ≤ a.length) (hlb : rows * cols ≤ b.length)
    (hlr : rows * cols ≤ r0.length) (hs : rows * cols ≤ INT_MAX) :
    ∃ mem', add mem m1 rows cols m2 res = some mem' ∧
      Filled mem mem' res rows cols
        (fun r c => a.getD (r * cols + c) 0 + b.getD (r * cols + c) 0) (fun _ _ => True) := by
  unfold add
  apply fill_loops _ _ hr hlr
  intro R C mem2 hR hC hI
  have hnd : ¬ doneAt R C R C := by simp [doneAt]
  have hi := idx_lt hR hC
  have hle : R * cols + C ≤ INT_MAX := by omega
  simp only [loadAt_eq_load _ _ hle, storeAt_eq_store _ _ _ hle,
    hI.load_undone hR hC hnd, load_eq_getD ha (lt_of_lt_of_le hi hla),
    load_eq_getD hb (lt_of_lt_of_le hi hlb)]

/-- The loops of `sub` fill the output with the cellwise differences of the
values the inputs held at the call, whichever of the three buffers coincide,
when no index overflows. -/
theorem sub_filled {α : Type} [Zero α] [Sub α] (mem : Mem α)
    (m1 rows cols m2 res : Nat) (a b r0 : List α)
    (ha : mem[m1]? = some a) (hb : mem[m2]? = some b) (hr : mem[res]? = some r0)
    (hla : rows * cols ≤ a.length) (hlb : rows * cols ≤ b.length)
    (hlr : rows * cols ≤ r0.length) (hs : rows * cols ≤ INT_MAX) :
    ∃ mem', sub mem m1 rows cols m2 res = some mem' ∧
      Filled mem mem' res rows cols
        (fun r c => a.getD (r * cols + c) 0 - b.getD (r * cols + c) 0) (fun _ _ => True) := by
  unfold sub
  apply fill_loops _ _ hr hlr
  intro R C mem2 hR hC hI
  have hnd : ¬ doneAt R C R C := by simp [doneAt]
  have hi := idx_lt hR hC
  have hle : R * cols + C ≤ INT_MAX := by omega
  simp only [loadAt_eq_load _ _ hle, storeAt_eq_store _ _ _ hle,
    hI.load_undone hR hC hnd, load_eq_getD ha (lt_of_lt_of_le hi hla),
    load_eq_getD hb (lt_of_lt_of_le hi hlb)]

/-- What a completed fill leaves in memory. -/
theorem Filled.result {α : Type} {mem0 mem : Mem α} {res rows cols : Nat}
    {val : Nat → Nat → α} {r0 : List α}
    (h : Filled mem0 mem res rows cols val (fun _ _ => True)) (h0 : mem0[res]? = some r0) :
    ∃ out, mem[res]? = some out ∧ out.length = r0.length ∧
      (∀ r c, r < rows → c < cols → out[r * cols + c]? = some (val r c)) ∧
      (∀ i, rows * cols ≤ i → out[i]? = r0[i]?) ∧
      (∀ p, p ≠ res → mem[p]? = mem0[p]?) := by
  obtain ⟨hf, r0', r, h0', h1, _, hl, hout, hin⟩ := h
  rw [h0] at h0'
  cases h0'
  exact ⟨r, h1, hl, fun r c hr hc => (hin r c hr hc).1 trivial, hout, hf⟩

/-- Reading a cell through `getD` once it is known through `[i]?`. -/
theorem getD_of_getElem? {α : Type} {l : List α} {i : Nat} {v d : α}
    (h : l[i]? = some v) : l.getD i d = v := by
  simp [List.getD_eq_getElem?_getD, h]

/-- Specification of `dotBuf`: the call returns, the output keeps its length,
its first `a_rows * b_cols` cells are the product and the rest is untouched. -/
theorem dotBuf_spec {α : Type} [Semiring α] (a : List α) (a_rows a_cols : Nat)
    (b : List α) (b_rows b_cols : Nat) (res : List α) (hdim : a_cols = b_rows)
    (hla : a_rows * a_cols ≤ a.length) (hlb : b_rows * b_cols ≤ b.length)
    (hlr : a_rows * b_cols ≤ res.length)
    (hsa : a_rows * a_cols ≤ INT_MAX) (hsb : b_rows * b_cols ≤ INT_MAX)
    (hsr : a_rows * b_cols ≤ INT_MAX) :
    ∃ out, dotBuf a a_rows a_cols b b_rows b_cols res = some out ∧
      out.length = res.length ∧
      (∀ r c, r < a_rows → c < b_cols →
        out[r * b_cols + c]? = some (∑ k in Finset.range b_rows,
          a.getD (r * a_cols + k) 0 * b.getD (k * b_cols + c) 0)) ∧
      (∀ i, a_rows * b_cols ≤ i → out[i]? = res[i]?) := by
  obtain ⟨mem', hrun, hF⟩ := dot_filled [a, b, res] 0 a_rows a_cols 1 b_rows b_cols 2
    a b res (by decide) (by decide) rfl rfl rfl hdim hla hlb hlr hsa hsb hsr
  obtain ⟨out, ho, hl, hin, hout, _⟩ := hF.result rfl
  exact ⟨out, by simp [dotBuf, hrun, ho], hl, hin, hout⟩

/-- Specification of `addBuf`. -/
theorem addBuf_spec {α : Type} [Zero α] [Add α] (a : List α) (rows cols : Nat)
    (b res : List α) (hla : rows * cols ≤ a.length) (hlb : rows * cols ≤ b.length)
    (hlr : rows * cols ≤ res.length) (hs : rows * cols ≤ INT_MAX) :
    ∃ out, addBuf a rows cols b res = some out ∧ out.length = res.length ∧
      (∀ r c, r < rows → c < cols →
        out[r * cols + c]? = some (a.getD (r * cols + c) 0 + b.getD (r * cols + c) 0)) ∧
      (∀ i, rows * cols ≤ i → out[i]? = res[i]?) := by
  obtain ⟨mem', hrun, hF⟩ := add_filled [a, b, res] 0 rows cols 1 2
    a b res rfl rfl rfl hla hlb hlr hs
  obtain ⟨out, ho, hl, hin, hout, _⟩ := hF.result rfl
  exact ⟨out, by simp [addBuf, hrun, ho], hl, hin, hout⟩

/-- Specification of `subBuf`. -/
theorem subBuf_spec {α : Type} [Zero α] [Sub α] (a : List α) (rows cols : Nat)
    (b res : List α) (hla : rows * cols ≤ a.length) (hlb : rows * cols ≤ b.length)
    (hlr : rows * cols ≤ res.length) (hs : rows * cols ≤ INT_MAX) :
    ∃ out, subBuf a rows cols b res = some out ∧ out.length = res.length ∧
      (∀ r c, r < rows → c < cols →
        out[r * cols + c]? = some (a.getD (r * cols + c) 0 - b.getD (r * cols + c) 0)) ∧
      (∀ i, rows * cols ≤ i → out[i]? = res[i]?) := by
  obtain ⟨mem', hrun, hF⟩ := sub_filled [a, b, res] 0 rows cols 1 2
    a b res rfl rfl rfl hla hlb hlr hs
  obtain ⟨out, ho, hl, hin, hout, _⟩ := hF.result rfl
  exact ⟨out, by simp [subBuf, hrun, ho], hl, hin, hout⟩

/-- The cells of the identity matrix. -/
theorem identity_getD {α : Type} [Zero α] [One α] {n k c : Nat} (hk : k < n) (hc : c < n) :
    (identity n : List α).getD (k * n + c) 0 = if k = c then 1 else 0 := by
  have hpos : 0 < n := by omega
  have hlt : k * n + c < n * n := idx_lt hk hc
  have e1 : (k * n + c) / n = k := by
    rw [Nat.add_comm, Nat.add_mul_div_right _ _ hpos, Nat.div_eq_of_lt hc, Nat.zero_add]
  have e2 : (k * n + c) % n = c := by
    rw [Nat.add_comm, Nat.add_mul_mod_self_right, Nat.mod_eq_of_lt hc]
  simp [identity, List.getD_eq_getElem?_getD, List.getElem?_range hlt, e1, e2]

/-- The cells of the zero matrix. -/
theorem zeros_getD {α : Type} [Zero α] (rows cols i : Nat) :
    (zeros rows cols : List α).getD i 0 = 0 := by
  simp only [zeros, List.getD_eq_getElem?_getD, List.getElem?_replicate]
  split <;> rfl

/-- An in-bounds cell read through `[i]?` and through `getD`. -/
theorem getElem?_eq_some_getD {α : Type} {l : List α} {i : Nat} (d : α)
    (h : i < l.length) : l[i]? = some (l.getD i d) := by
  simp [List.getD_eq_getElem?_getD, List.getElem?_eq_getElem h]

/-! ## Bounds and frame -/

/-- Whatever a loop returns satisfies every invariant its completed steps keep. -/
theorem forLoop_some_inv {σ : Type} (body : Nat → σ → Option σ) (I : σ → Prop)
    (n : Nat) (s s' : σ) (h : forLoop body n s = some s') (h0 : I s)
    (hstep : ∀ i s1 s2, i < n → I s1 → body i s1 = some s2 → I s2) : I s' := by
  induction n generalizing s' with
  | zero =>
    simp only [forLoop, Option.some.injEq] at h
    exact h ▸ h0
  | succ n ih =>
    simp only [forLoop] at h
    split at h
    · rename_i s1 hs1
      exact hstep n s1 s' (Nat.lt_succ_self n)
        (ih s1 hs1 (fun i a b hi => hstep i a b (Nat.lt_succ_of_lt hi))) h
    · exact absurd h (by simp)

/-- A loop fails when one of its iterations fails on the state that reaches it. -/
theorem forLoop_none {σ : Type} (body : Nat → σ → Option σ) (n i : Nat) (s : σ)
    (hi : i < n) (h : ∀ s1, forLoop body i s = some s1 → body i s1 = none) :
    forLoop body n s = none := by
  induction n with
  | zero => omega
  | succ n ih =>
    simp only [forLoop]
    by_cases e : i = n
    · subst e
      split
      · rename_i s1 hs1
        exact h s1 hs1
      · rfl
    · rw [ih (by omega)]

/-- The frame holds before any write. -/
theorem FrameOf.refl {α : Type} (N res : Nat) (mem : Mem α) : FrameOf N res mem mem :=
  ⟨fun _ _ => rfl, fun r0 h => ⟨r0, h, rfl, fun _ _ => rfl⟩⟩

/-- Under the frame every buffer keeps its length. -/
theorem FrameOf.shape {α : Type} {N res : Nat} {mem mem' : Mem α}
    (h : FrameOf N res mem mem') {p : Nat} {buf : List α} (hp : mem[p]? = some buf) :
    ∃ buf', mem'[p]? = some buf' ∧ buf'.length = buf.length := by
  by_cases e : p = res
  · subst e
    obtain ⟨out, ho, hl, _⟩ := h.2 buf hp
    exact ⟨out, ho, hl⟩
  · exact ⟨buf, (h.1 p e).trans hp, rfl⟩

/-- Under the frame a read inside the buffer succeeds. -/
theorem FrameOf.load_some {α : Type} {N res : Nat} {mem mem' : Mem α}
    (h : FrameOf N res mem mem') {p i : Nat} {buf : List α} (hp : mem[p]? = some buf)
    (hi : i < buf.length) : ∃ v, load mem' p i = some v := by
  obtain ⟨buf', hb, hl⟩ := h.shape hp
  exact ⟨buf'[i], by simp [load, hb, List.getElem?_eq_getElem (hl ▸ hi)]⟩

/-- Under the frame a read past the end of the buffer fails. -/
theorem FrameOf.load_none {α : Type} {N res : Nat} {mem mem' : Mem α}
    (h : FrameOf N res mem mem') {p i : Nat} {buf : List α} (hp : mem[p]? = some buf)
    (hi : buf.length ≤ i) : load mem' p i = none := by
  obtain ⟨buf', hb, hl⟩ := h.shape hp
  simp [load, hb, hl, hi]

/-- A completed write below `N` into `res` keeps the frame. -/
theorem FrameOf.store_of_some {α : Type} {N res idx : Nat} {mem mem2 mem3 : Mem α} {v : α}
    (h : FrameOf N res mem mem2) (hidx : idx < N)
    (hs : store mem2 res idx v = some mem3) : FrameOf N res mem mem3 := by
  unfold MatrixKernel.store at hs
  split at hs
  · rename_i buf hbuf
    split at hs
    · simp only [Option.some.injEq] at hs
      subst hs
      have hres : res < mem2.length := (List.getElem?_eq_some_iff.1 hbuf).1
      refine ⟨fun p hp => ?_, fun r0 hr0 => ?_⟩
      · rw [List.getElem?_set_ne (Ne.symm hp)]
        exact h.1 p hp
      · obtain ⟨out, ho, hl, hout⟩ := h.2 r0 hr0
        rw [hbuf] at ho
        cases ho
        refine ⟨buf.set idx v, List.getElem?_set_self hres, by simp [hl], fun i hi => ?_⟩
        rw [List.getElem?_set_ne (by omega)]
        exact hout i hi
    · exact absurd hs (by simp)
  · exact absurd hs (by simp)

/-- Under the frame a write inside the output matrix succeeds and keeps the
frame. -/
theorem FrameOf.write {α : Type} {N res idx : Nat} {mem mem2 : Mem α} {r0 : List α}
    (h : FrameOf N res mem mem2) (hr : mem[res]? = some r0) (hN : N ≤ r0.length)
    (hidx : idx < N) (v : α) :
    ∃ mem3, store mem2 res idx v = some mem3 ∧ FrameOf N res mem mem3 := by
  obtain ⟨out, ho, hl, _⟩ := h.2 r0 hr
  have hlt : idx < out.length := by omega
  have hs : MatrixKernel.store mem2 res idx v = some (mem2.set res (out.set idx v)) := by
    simp [MatrixKernel.store, ho, hlt]
  exact ⟨_, hs, h.store_of_some hidx hs⟩

/-- The reduction loop returns when all its reads succeed. -/
theorem inner_some {α : Type} [Zero α] [Add α] [Mul α] (lx ly : Nat → Option α) (n : Nat)
    (h : ∀ k, k < n → (∃ u, lx k = some u) ∧ (∃ v, ly k = some v)) :
    ∃ t, forLoop (fun k tmp =>
        match lx k, ly k with
        | some u, some v => some (tmp + u * v)
        | _, _ => none) n (0 : α) = some t := by
  obtain ⟨t, ht, _⟩ := forLoop_inv (fun k tmp =>
      match lx k, ly k with
      | some u, some v => some (tmp + u * v)
      | _, _ => none) (fun _ _ => True) n (0 : α) trivial (by
    intro k tmp hk _
    obtain ⟨⟨u, hu⟩, ⟨v, hv⟩⟩ := h k hk
    exact ⟨tmp + u * v, by simp only [hu, hv], trivial⟩)
  exact ⟨t, ht⟩

/-- The call of `dot` returns, whichever buffers coincide, as soon as the reads
it makes are inside `a` and `b`, the output matrix fits in `res` and no index
overflows; the frame holds afterwards. -/
theorem dot_returns {α : Type} [Zero α] [Add α] [Mul α] (mem : Mem α)
    (m1 a_rows a_cols m2 b_rows b_cols res : Nat) (a b r0 : List α)
    (ha : mem[m1]? = some a) (hb : mem[m2]? = some b) (hr : mem[res]? = some r0)
    (hdim : b_rows ≤ a_cols)
    (hla : a_rows * a_cols ≤ a.length) (hlb : b_rows * b_cols ≤ b.length)
    (hlr : a_rows * b_cols ≤ r0.length)
    (hsa : a_rows * a_cols ≤ INT_MAX) (hsb : b_rows * b_cols ≤ INT_MAX)
    (hsr : a_rows * b_cols ≤ INT_MAX) :
    ∃ mem', dot mem m1 a_rows a_cols m2 b_rows b_cols res = some mem' ∧
      FrameOf (a_rows * b_cols) res mem mem' := by
  unfold dot
  apply forLoop_inv _ (fun _ mem' => FrameOf (a_rows * b_cols) res mem mem') _ _
    (FrameOf.refl _ _ _)
  intro C mem1 hC hI
  apply forLoop_inv _ (fun _ mem' => FrameOf (a_rows * b_cols) res mem mem') _ _ hI
  intro R mem2 hR hI2
  obtain ⟨t, ht⟩ := inner_some (fun k => loadAt mem2 m1 R a_cols k)
    (fun k => loadAt mem2 m2 k b_cols C) b_rows (by
      intro k hk
      have hia : R * a_cols + k < a_rows * a_cols := idx_lt hR (by omega)
      have hib : k * b_cols + C < b_rows * b_cols := idx_lt hk hC
      show (∃ u, loadAt mem2 m1 R a_cols k = some u) ∧
        (∃ v, loadAt mem2 m2 k b_cols C = some v)
      rw [loadAt_eq_load _ _ (by omega), loadAt_eq_load _ _ (by omega)]
      exact ⟨hI2.load_some ha (by omega), hI2.load_some hb (by omega)⟩)
  have hir : R * b_cols + C < a_rows * b_cols := idx_lt hR hC
  simp only [ht, storeAt_eq_store _ _ _ (show R * b_cols + C ≤ INT_MAX by omega)]
  exact hI2.write hr hlr hir t

/-- Whenever the call of `dot` returns, the frame holds. -/
theorem frame_of_dot_some {α : Type} [Zero α] [Add α] [Mul α] (mem mem' : Mem α)
    (m1 a_rows a_cols m2 b_rows b_cols res : Nat)
    (h : dot mem m1 a_rows a_cols m2 b_rows b_cols res = some mem') :
    FrameOf (a_rows * b_cols) res mem mem' := by
  unfold dot at h
  refine forLoop_some_inv _ (FrameOf (a_rows * b_cols) res mem) _ _ _ h
    (FrameOf.refl _ _ _) ?_
  intro C mem1 mem1' hC hI h1
  refine forLoop_some_inv _ (FrameOf (a_rows * b_cols) res mem) _ _ _ h1 hI ?_
  intro R mem2 mem3 hR hI2 h2
  split at h2
  · exact hI2.store_of_some (idx_lt hR hC) (storeAt_some h2)
  · exact absurd h2 (by simp)

/-! ## Calls that overflow `int` -/

/-- The call of `add` on a shape of more than `INT_MAX + 1` cells overflows. -/
theorem add_overflow {α : Type} [Add α] (mem : Mem α) (m1 rows cols m2 res : Nat)
    (h : INT_MAX + 1 < rows * cols) : add mem m1 rows cols m2 res = none := by
  obtain ⟨hr, hc, hi⟩ := last_index_gt h
  unfold add
  apply forLoop_none _ cols (cols - 1) mem (by omega)
  intro mem1 _
  apply forLoop_none _ rows (rows - 1) mem1 (by omega)
  intro mem2 _
  simp only [loadAt, cellIndex_of_gt hi]

/-- The call of `sub` on a shape of more than `INT_MAX + 1` cells overflows. -/
theorem sub_overflow {α : Type} [Sub α] (mem : Mem α) (m1 rows cols m2 res : Nat)
    (h : INT_MAX + 1 < rows * cols) : sub mem m1 rows cols m2 res = none := by
  obtain ⟨hr, hc, hi⟩ := last_index_gt h
  unfold sub
  apply forLoop_none _ cols (cols - 1) mem (by omega)
  intro mem1 _
  apply forLoop_none _ rows (rows - 1) mem1 (by omega)
  intro mem2 _
  simp only [loadAt, cellIndex_of_gt hi]

/-- The call of `dot` with an output shape of more than `INT_MAX + 1` cells
overflows. -/
theorem dot_overflow {α : Type} [Zero α] [Add α] [Mul α] (mem : Mem α)
    (m1 a_rows a_cols m2 b_rows b_cols res : Nat)
    (h : INT_MAX + 1 < a_rows * b_cols) :
    dot mem m1 a_rows a_cols m2 b_rows b_cols res = none := by
  obtain ⟨hr, hc, hi⟩ := last_index_gt h
  unfold dot
  apply forLoop_none _ b_cols (b_cols - 1) mem (by omega)
  intro mem1 _
  apply forLoop_none _ a_rows (a_rows - 1) mem1 (by omega)
  intro mem2 _
  split
  · simp only [storeAt, cellIndex_of_gt hi]
  · rfl

/-- The row-outer traversal overflows on the same output shapes. -/
theorem dotRowOuter_overflow {α : Type} [Zero α] [Add α] [Mul α] (mem : Mem α)
    (m1 a_rows a_cols m2 b_rows b_cols res : Nat)
    (h : INT_MAX + 1 < a_rows * b_cols) :
    dotRowOuter mem m1 a_rows a_cols m2 b_rows b_cols res = none := by
  obtain ⟨hr, hc, hi⟩ := last_index_gt h
  unfold dotRowOuter
  apply forLoop_none _ a_rows (a_rows - 1) mem (by omega)
  intro mem1 _
  apply forLoop_none _ b_cols (b_cols - 1) mem1 (by omega)
  intro mem2 _
  split
  · simp only [storeAt, cellIndex_of_gt hi]
  · rfl

/-- The separate-buffer call of `dot` overflows with its output shape. -/
theorem dotBuf_overflow {α : Type} [Zero α] [Add α] [Mul α] (a : List α)
    (a_rows a_cols : Nat) (b : List α) (b_rows b_cols : Nat) (res : List α)
    (h : INT_MAX + 1 < a_rows * b_cols) :
    dotBuf a a_rows a_cols b b_rows b_cols res = none := by
  simp [dotBuf, dot_overflow _ _ _ _ _ _ _ _ h]

/-- The separate-buffer call of `add` overflows with its shape. -/
theorem addBuf_overflow {α : Type} [Add α] (a : List α) (rows cols : Nat) (b res : List α)
    (h : INT_MAX + 1 < rows * cols) : addBuf a rows cols b res = none := by
  simp [addBuf, add_overflow _ _ _ _ _ _ h]

/-- The separate-buffer call of `sub` overflows with its shape. -/
theorem subBuf_overflow {α : Type} [Sub α] (a : List α) (rows cols : Nat) (b res : List α)
    (h : INT_MAX + 1 < rows * cols) : subBuf a rows cols b res = none := by
  simp [subBuf, sub_overflow _ _ _ _ _ _ h]

/-! ## The row-outer traversal -/

/-- The nested loops of the row-outer traversal fill the whole output matrix
when each step writes `val row col` to its cell. -/
theorem fill_loops_rows {α : Type} {mem0 : Mem α} {res rows cols : Nat} {r0 : List α}
    (val : Nat → Nat → α) (step : Nat → Nat → Mem α → Option (Mem α))
    (h0 : mem0[res]? = some r0) (hlen : rows * cols ≤ r0.length)
    (hstep : ∀ R C mem, R < rows → C < cols →
      Filled mem0 mem res rows cols val (doneRows R C) →
      step R C mem = store mem res (R * cols + C) (val R C)) :
    ∃ mem', forLoop (fun row mem1 => forLoop (fun col mem2 => step row col mem2) cols mem1)
        rows mem0 = some mem' ∧
      Filled mem0 mem' res rows cols val (fun _ _ => True) := by
  have hinit : Filled mem0 mem0 res rows cols val (doneRows 0 0) :=
    (Filled.init val h0 hlen).congr (fun row col _ _ => by simp [doneAt, doneRows])
  obtain ⟨mem', hrun, hI⟩ := forLoop_inv
    (fun row mem1 => forLoop (fun col mem2 => step row col mem2) cols mem1)
    (fun R mem => Filled mem0 mem res rows cols val (doneRows R 0)) rows mem0 hinit (by
      intro R mem1 hR hI
      obtain ⟨mem2, hrun2, hI2⟩ := forLoop_inv (fun col mem2 => step R col mem2)
        (fun C mem => Filled mem0 mem res rows cols val (doneRows R C)) cols mem1 hI (by
          intro C mem2 hC hI2
          obtain ⟨mem3, hst, hI3⟩ := hI2.store hR hC
          refine ⟨mem3, (hstep R C mem2 hR hC hI2).trans hst, hI3.congr ?_⟩
          intro row col _ _
          simp only [doneRows]
          constructor
          · rintro ((h | h) | h)
            · exact Or.inl h
            · exact Or.inr ⟨h.1, by omega⟩
            · exact Or.inr ⟨h.1, by omega⟩
          · rintro (h | h)
            · exact Or.inl (Or.inl h)
            · by_cases e : col = C
              · exact Or.inr ⟨h.1, e⟩
              · exact Or.inl (Or.inr ⟨h.1, by omega⟩))
      refine ⟨mem2, hrun2, hI2.congr ?_⟩
      intro row col _ hc
      simp only [doneRows]
      constructor
      · rintro (h | h)
        · omega
        · omega
      · intro h
        rcases h with h | h
        · by_cases e : row = R
          · exact Or.inr ⟨e, hc⟩
          · exact Or.inl (by omega)
        · omega)
  refine ⟨mem', hrun, hI.congr ?_⟩
  intro row col hr _
  simp only [doneRows]
  constructor
  · intro _; trivial
  · intro _; exact Or.inl hr

/-- A completed fill determines the whole memory. -/
theorem Filled.unique {α : Type} {mem0 mem1 mem2 : Mem α} {res rows cols : Nat}
    {val : Nat → Nat → α}
    (h1 : Filled mem0 mem1 res rows cols val (fun _ _ => True))
    (h2 : Filled mem0 mem2 res rows cols val (fun _ _ => True)) : mem1 = mem2 := by
  obtain ⟨r0, _, hr0, _, _, _, _, _⟩ := h1.2
  obtain ⟨o1, ho1, _, v1, f1, g1⟩ := h1.result hr0
  obtain ⟨o2, ho2, _, v2, f2, g2⟩ := h2.result hr0
  apply List.ext_getElem?
  intro p
  by_cases e : p = res
  · subst e
    rw [ho1, ho2]
    congr 1
    apply List.ext_getElem?
    intro i
    by_cases hi : i < rows * cols
    · obtain ⟨hr, hc, he⟩ := idx_decode hi
      rw [← he, v1 _ _ hr hc, v2 _ _ hr hc]
    · rw [f1 i (by omega), f2 i (by omega)]
  · rw [g1 p e, g2 p e]

/-- With the output apart from the inputs, the step of either traversal writes
to its cell the value the reduction has on the memory of the call. -/
theorem cell_step {α : Type} [Zero α] [Add α] [Mul α] {mem mem2 : Mem α}
    {m1 a_rows a_cols m2 b_rows b_cols res : Nat} {a b : List α}
    {val : Nat → Nat → α} {done : Nat → Nat → Prop}
    (h1 : m1 ≠ res) (h2 : m2 ≠ res)
    (ha : mem[m1]? = some a) (hb : mem[m2]? = some b) (hdim : a_cols = b_rows)
    (hla : a_rows * a_cols ≤ a.length) (hlb : b_rows * b_cols ≤ b.length)
    (hsa : a_rows * a_cols ≤ INT_MAX) (hsb : b_rows * b_cols ≤ INT_MAX)
    (hsr : a_rows * b_cols ≤ INT_MAX)
    (hI : Filled mem mem2 res a_rows b_cols val done) {R C : Nat}
    (hR : R < a_rows) (hC : C < b_cols) :
    (match forLoop (fun k tmp =>
        match loadAt mem2 m1 R a_cols k, loadAt mem2 m2 k b_cols C with
        | some x, some y => some (tmp + x * y)
        | _, _ => none) b_rows (0 : α) with
      | some tmp => storeAt mem2 res R b_cols C tmp
      | none => none) =
    store mem2 res (R * b_cols + C)
      ((forLoop (fun k tmp =>
        match loadAt mem m1 R a_cols k, loadAt mem m2 k b_cols C with
        | some x, some y => some (tmp + x * y)
        | _, _ => none) b_rows (0 : α)).getD 0) := by
  obtain ⟨t, ht⟩ := inner_some (fun k => loadAt mem m1 R a_cols k)
    (fun k => loadAt mem m2 k b_cols C) b_rows (by
      intro k hk
      have hia : R * a_cols + k < a_rows * a_cols := idx_lt hR (by omega)
      have hib : k * b_cols + C < b_rows * b_cols := idx_lt hk hC
      show (∃ u, loadAt mem m1 R a_cols k = some u) ∧
        (∃ v, loadAt mem m2 k b_cols C = some v)
      rw [loadAt_eq_load _ _ (by omega), loadAt_eq_load _ _ (by omega)]
      exact ⟨⟨_, load_eq_getD ha (by omega)⟩, ⟨_, load_eq_getD hb (by omega)⟩⟩)
  have hir : R * b_cols + C < a_rows * b_cols := idx_lt hR hC
  have hfr : ∀ p, p ≠ res → ∀ row n col,
      loadAt mem2 p row n col = loadAt mem p row n col := by
    intro p hp row n col
    simp only [loadAt, hI.load_frame hp]
  simp only [hfr m1 h1, hfr m2 h2, ht, Option.getD_some,
    storeAt_eq_store _ _ _ (show R * b_cols + C ≤ INT_MAX by omega)]

/-! ## The claims -/

/-- C1 as stated fails: with `a` of shape 2 by 1, `b` of shape 1 by 1073741825
and buffers of the sizes the claim asks for, the index `row * b_cols + col`
of the output exceeds `INT_MAX`, so the call has undefined behaviour. -/
theorem dot_computes_product_counterexample :
    2 * 1 ≤ ([0, 0] : List ℤ).length ∧
    1 * 1073741825 ≤ (List.replicate 1073741825 (0 : ℤ)).length ∧
    2 * 1073741825 ≤ (List.replicate 2147483650 (0 : ℤ)).length ∧
    dot ([[0, 0], List.replicate 1073741825 0, List.replicate 2147483650 0] : Mem ℤ)
      0 2 1 1 1 1073741825 2 = none :=
  ⟨by decide, le_of_le_of_eq (by decide) (List.length_replicate _ _).symm,
    le_of_le_of_eq (by decide) (List.length_replicate _ _).symm,
    dot_overflow _ _ _ _ _ _ _ _ (by decide)⟩

/-- C1 amended: for `int` dimensions with `a_cols = b_rows` and the three
shapes of at most `INT_MAX` cells, buffers `a`, `b` and `res` of at least
`a_rows * a_cols`, `b_rows * b_cols` and `a_rows * b_cols` cells, and `res`
distinct from `a` and `b`, the call of `dot` returns and afterwards
`res[r * b_cols + c]` is the sum over `k < b_rows` of
`a[r * a_cols + k] * b[k * b_cols + c]`, for every `r < a_rows` and
`c < b_cols` (exact arithmetic). -/
theorem dot_computes_product {α : Type} [Semiring α] (mem : Mem α)
    (m1 a_rows a_cols m2 b_rows b_cols res : Nat) (a b r0 : List α)
    (h1 : res ≠ m1) (h2 : res ≠ m2)
    (ha : mem[m1]? = some a) (hb : mem[m2]? = some b) (hr : mem[res]? = some r0)
    (_hint : a_rows ≤ INT_MAX ∧ a_cols ≤ INT_MAX ∧ b_rows ≤ INT_MAX ∧ b_cols ≤ INT_MAX)
    (hdim : a_cols = b_rows)
    (hla : a_rows * a_cols ≤ a.length) (hlb : b_rows * b_cols ≤ b.length)
    (hlr : a_rows * b_cols ≤ r0.length)
    (hsa : a_rows * a_cols ≤ INT_MAX) (hsb : b_rows * b_cols ≤ INT_MAX)
    (hsr : a_rows * b_cols ≤ INT_MAX) :
    ∃ mem' out, dot mem m1 a_rows a_cols m2 b_rows b_cols res = some mem' ∧
      mem'[res]? = some out ∧
      ∀ r c, r < a_rows → c < b_cols →
        out[r * b_cols + c]? = some (∑ k in Finset.range b_rows,
          a.getD (r * a_cols + k) 0 * b.getD (k * b_cols + c) 0) := by
  obtain ⟨mem', hrun, hF⟩ := dot_filled mem m1 a_rows a_cols m2 b_rows b_cols res
    a b r0 (Ne.symm h1) (Ne.symm h2) ha hb hr hdim hla hlb hlr hsa hsb hsr
  obtain ⟨out, ho, _, hin, _, _⟩ := hF.result hr
  exact ⟨mem', out, hrun, ho, hin⟩

/-- Witness of C1: a 1 by 2 matrix times a 2 by 1 matrix. -/
theorem dot_computes_product_witness :
    ∃ mem' out, dot ([[1, 2], [3, 4], [0]] : Mem ℤ) 0 1 2 1 2 1 2 = some mem' ∧
      mem'[2]? = some out ∧
      ∀ r c, r < 1 → c < 1 →
        out[r * 1 + c]? = some (∑ k in Finset.range 2,
          ([1, 2] : List ℤ).getD (r * 2 + k) 0 * ([3, 4] : List ℤ).getD (k * 1 + c) 0) :=
  dot_computes_product ([[1, 2], [3, 4], [0]] : Mem ℤ) 0 1 2 1 2 1 2 [1, 2] [3, 4] [0]
    (by decide) (by decide) rfl rfl rfl (by decide) rfl (by decide) (by decide) (by decide)
    (by decide) (by decide) (by decide)

/-- C2 as stated fails: with `rows = 2`, `cols = 1073741825` and three buffers
of `2147483650` cells, the index `row * cols + col` exceeds `INT_MAX`, so the
call of `add` has undefined behaviour. -/
theorem add_computes_sum_counterexample :
    2 * 1073741825 ≤ (List.replicate 2147483650 (0 : ℤ)).length ∧
    add ([List.replicate 2147483650 0, List.replicate 2147483650 0,
      List.replicate 2147483650 0] : Mem ℤ) 0 2 1073741825 1 2 = none :=
  ⟨le_of_le_of_eq (by decide) (List.length_replicate _ _).symm,
    add_overflow _ _ _ _ _ _ (by decide)⟩

/-- C2 amended: for `int` dimensions `rows`, `cols` with
`rows * cols <= INT_MAX` and buffers `a`, `b`, `res` of at least
`rows * cols` cells (any of which may be the same buffer), the call of `add`
returns and afterwards `res[r * cols + c] = a[r * cols + c] + b[r * cols + c]`
for every `r < rows` and `c < cols`, with `a` and `b` as they were at the
call. -/
theorem add_computes_sum {α : Type} [Zero α] [Add α] (mem : Mem α)
    (m1 rows cols m2 res : Nat) (a b r0 : List α)
    (ha : mem[m1]? = some a) (hb : mem[m2]? = some b) (hr : mem[res]? = some r0)
    (_hint : rows ≤ INT_MAX ∧ cols ≤ INT_MAX)
    (hla : rows * cols ≤ a.length) (hlb : rows * cols ≤ b.length)
    (hlr : rows * cols ≤ r0.length) (hs : rows * cols ≤ INT_MAX) :
    ∃ mem' out, add mem m1 rows cols m2 res = some mem' ∧ mem'[res]? = some out ∧
      ∀ r c, r < rows → c < cols →
        out[r * cols + c]? = some (a.getD (r * cols + c) 0 + b.getD (r * cols + c) 0) := by
  obtain ⟨mem', hrun, hF⟩ := add_filled mem m1 rows cols m2 res a b r0 ha hb hr hla hlb hlr hs
  obtain ⟨out, ho, _, hin, _, _⟩ := hF.result hr
  exact ⟨mem', out, hrun, ho, hin⟩

/-- Witness of C2: two 1 by 2 matrices. -/
theorem add_computes_sum_witness :
    ∃ mem' out, add ([[1, 2], [3, 4], [0, 0]] : Mem ℤ) 0 1 2 1 2 = some mem' ∧
      mem'[2]? = some out ∧
      ∀ r c, r < 1 → c < 2 →
        out[r * 2 + c]? = some (([1, 2] : List ℤ).getD (r * 2 + c) 0 +
          ([3, 4] : List ℤ).getD (r * 2 + c) 0) :=
  add_computes_sum ([[1, 2], [3, 4], [0, 0]] : Mem ℤ) 0 1 2 1 2 [1, 2] [3, 4] [0, 0]
    rfl rfl rfl (by decide) (by decide) (by decide) (by decide) (by decide)

/-- C3 as stated fails: with `rows = 1073741825`, `cols = 2` and three buffers
of `2147483650` cells, the index `row * cols + col` exceeds `INT_MAX`, so the
call of `sub` has undefined behaviour. -/
theorem sub_computes_difference_counterexample :
    1073741825 * 2 ≤ (List.replicate 2147483650 (0 : ℤ)).length ∧
    sub ([List.replicate 2147483650 0, List.replicate 2147483650 0,
      List.replicate 2147483650 0] : Mem ℤ) 0 1073741825 2 1 2 = none :=
  ⟨le_of_le_of_eq (by decide) (List.length_replicate _ _).symm,
    sub_overflow _ _ _ _ _ _ (by decide)⟩

/-- C3 amended: for `int` dimensions `rows`, `cols` with
`rows * cols <= INT_MAX` and buffers `a`, `b`, `res` of at least
`rows * cols` cells (any of which may be the same buffer), the call of `sub`
returns and afterwards `res[r * cols + c] = a[r * cols + c] - b[r * cols + c]`
for every `r < rows` and `c < cols`, with `a` and `b` as they were at the
call. -/
theorem sub_computes_difference {α : Type} [Zero α] [Sub α] (mem : Mem α)
    (m1 rows cols m2 res : Nat) (a b r0 : List α)
    (ha : mem[m1]? = some a) (hb : mem[m2]? = some b) (hr : mem[res]? = some r0)
    (_hint : rows ≤ INT_MAX ∧ cols ≤ INT_MAX)
    (hla : rows * cols ≤ a.length) (hlb : rows * cols ≤ b.length)
    (hlr : rows * cols ≤ r0.length) (hs : rows * cols ≤ INT_MAX) :
    ∃ mem' out, sub mem m1 rows cols m2 res = some mem' ∧ mem'[res]? = some out ∧
      ∀ r c, r < rows → c < cols →
        out[r * cols + c]? = some (a.getD (r * cols + c) 0 - b.getD (r * cols + c) 0) := by
  obtain ⟨mem', hrun, hF⟩ := sub_filled mem m1 rows cols m2 res a b r0 ha hb hr hla hlb hlr hs
  obtain ⟨out, ho, _, hin, _, _⟩ := hF.result hr
  exact ⟨mem', out, hrun, ho, hin⟩

/-- Witness of C3: two 2 by 1 matrices. -/
theorem sub_computes_difference_witness :
    ∃ mem' out, sub ([[5, 7], [3, 4], [0, 0]] : Mem ℤ) 0 2 1 1 2 = some mem' ∧
      mem'[2]? = some out ∧
      ∀ r c, r < 2 → c < 1 →
        out[r * 1 + c]? = some (([5, 7] : List ℤ).getD (r * 1 + c) 0 -
          ([3, 4] : List ℤ).getD (r * 1 + c) 0) :=
  sub_computes_difference ([[5, 7], [3, 4], [0, 0]] : Mem ℤ) 0 2 1 1 2 [5, 7] [3, 4] [0, 0]
    rfl rfl rfl (by decide) (by decide) (by decide) (by decide) (by decide)

/-- C4: `dot` on the 2 by 3 matrix `[1,2,3,4,5,6]` and the 3 by 2 matrix
`[7,8,9,10,11,12]` returns and fills a 4-element result buffer, whatever it
held, with exactly `[58,64,139,154]`. -/
theorem dot_example_2x3_3x2 {α : Type} [Semiring α] (w x y z : α) :
    dotBuf [1, 2, 3, 4, 5, 6] 2 3 [7, 8, 9, 10, 11, 12] 3 2 [w, x, y, z]
      = some [58, 64, 139, 154] := by
  simp [dotBuf, dot, forLoop, loadAt, storeAt, cellIndex, intMul, intAdd, INT_MAX,
    load, store]
  norm_num

/-- C5: with `rows = cols = 2`, `A = [1,2,3,4]` and `B = [5,6,7,8]`, `add`
leaves `[6,8,10,12]` and `sub` leaves `[-4,-4,-4,-4]` in the result buffer,
whatever it held. -/
theorem add_sub_example_2x2 {α : Type} [Ring α] (w x y z : α) :
    addBuf [1, 2, 3, 4] 2 2 [5, 6, 7, 8] [w, x, y, z] = some [6, 8, 10, 12] ∧
    subBuf [1, 2, 3, 4] 2 2 [5, 6, 7, 8] [w, x, y, z] = some [-4, -4, -4, -4] := by
  constructor
  · simp [addBuf, add, forLoop, loadAt, storeAt, cellIndex, intMul, intAdd, INT_MAX,
      load, store]
    norm_num
  · simp [subBuf, sub, forLoop, loadAt, storeAt, cellIndex, intMul, intAdd, INT_MAX,
      load, store]
    norm_num

/-- C6 as stated fails, twice: on doubles an infinite entry times the 0 of the
identity is NaN, so `[inf, 1]` times the 2 by 2 identity is `[inf, NaN]`; and
for a 2 by 1073741825 matrix the output index exceeds `INT_MAX`, so the call
has undefined behaviour. -/
theorem dot_identity_counterexample :
    dotBuf [Dbl.pinf, Dbl.fin 1] 1 2 (identity 2) 2 2 [Dbl.fin 0, Dbl.fin 0]
      = some [Dbl.pinf, Dbl.nan] ∧
    [Dbl.pinf, Dbl.nan] ≠ [Dbl.pinf, Dbl.fin 1] ∧
    (List.replicate 2147483650 (0 : ℤ)).length = 2 * 1073741825 ∧
    dotBuf (identity 2) 2 2 (List.replicate 2147483650 (0 : ℤ)) 2 1073741825
      (List.replicate 2147483650 0) = none :=
  ⟨by decide, by decide, (List.length_replicate _ _).trans (by decide),
    dotBuf_overflow _ _ _ _ _ _ _ (by decide)⟩

/-- C6 amended: for every `m` by `n` matrix `A` of exact numbers (a semiring:
no infinity, no NaN, no rounding) with `m * n`, `n * n` and `m * m` at most
`INT_MAX`, `dot` of `A` with the `n` by `n` identity returns a result whose
first `m * n` cells equal `A`, and `dot` of the `m` by `m` identity with `A`
likewise. -/
theorem dot_identity {α : Type} [Semiring α] (m n : Nat) (A res : List α)
    (hA : A.length = m * n) (hres : m * n ≤ res.length)
    (hmn : m * n ≤ INT_MAX) (hnn : n * n ≤ INT_MAX) (hmm : m * m ≤ INT_MAX) :
    (∃ out, dotBuf A m n (identity n) n n res = some out ∧
      ∀ i, i < m * n → out[i]? = A[i]?) ∧
    (∃ out, dotBuf (identity m) m m A m n res = some out ∧
      ∀ i, i < m * n → out[i]? = A[i]?) := by
  constructor
  · obtain ⟨out, hrun, _, hin, _⟩ := dotBuf_spec A m n (identity n) n n res rfl
      (le_of_eq hA.symm) (by simp [identity]) hres hmn hnn hmn
    refine ⟨out, hrun, fun i hi => ?_⟩
    obtain ⟨hr, hc, he⟩ := idx_decode hi
    rw [← he, hin _ _ hr hc, getElem?_eq_some_getD 0 (by rw [hA, he]; exact hi)]
    congr 1
    rw [Finset.sum_eq_single (i % n)]
    · rw [identity_getD hc hc]; simp
    · intro k hk hne
      rw [identity_getD (Finset.mem_range.1 hk) hc]; simp [hne]
    · intro h; exact absurd (Finset.mem_range.2 hc) h
  · obtain ⟨out, hrun, _, hin, _⟩ := dotBuf_spec (identity m) m m A m n res rfl
      (by simp [identity]) (le_of_eq hA.symm) hres hmm hmn hmn
    refine ⟨out, hrun, fun i hi => ?_⟩
    obtain ⟨hr, hc, he⟩ := idx_decode hi
    rw [← he, hin _ _ hr hc, getElem?_eq_some_getD 0 (by rw [hA, he]; exact hi)]
    congr 1
    rw [Finset.sum_eq_single (i / n)]
    · rw [identity_getD hr hr]; simp
    · intro k hk hne
      rw [identity_getD hr (Finset.mem_range.1 hk)]; simp [Ne.symm hne]
    · intro h; exact absurd (Finset.mem_range.2 hr) h

/-- Witness of C6: a 1 by 2 matrix. -/
theorem dot_identity_witness :
    (∃ out, dotBuf ([3, 4] : List ℤ) 1 2 (identity 2) 2 2 [0, 0] = some out ∧
      ∀ i, i < 1 * 2 → out[i]? = ([3, 4] : List ℤ)[i]?) ∧
    (∃ out, dotBuf (identity 1) 1 1 ([3, 4] : List ℤ) 1 2 [0, 0] = some out ∧
      ∀ i, i < 1 * 2 → out[i]? = ([3, 4] : List ℤ)[i]?) :=
  dot_identity 1 2 [3, 4] [0, 0] (by decide) (by decide) (by decide) (by decide)
    (by decide)

/-- C7 as stated fails, twice: on doubles an infinite entry times 0 is NaN, so
`[inf, 1]` times the 2 by 1 zero matrix is `[NaN]`, not `[0]`; and for a
2 by 1 matrix times the 1 by 1073741825 zero matrix the output index exceeds
`INT_MAX`, so the call has undefined behaviour. -/
theorem dot_zero_counterexample :
    dotBuf [Dbl.pinf, Dbl.fin 1] 1 2 (zeros 2 1) 2 1 [Dbl.fin 7] = some [Dbl.nan] ∧
    [Dbl.nan] ≠ [(0 : Dbl)] ∧
    ([0, 0] : List ℤ).length = 2 * 1 ∧
    2 * 1073741825 ≤ (List.replicate 2147483650 (0 : ℤ)).length ∧
    dotBuf ([0, 0] : List ℤ) 2 1 (zeros 1 1073741825) 1 1073741825
      (List.replicate 2147483650 0) = none :=
  ⟨by decide, by decide, by decide,
    le_of_le_of_eq (by decide) (List.length_replicate _ _).symm,
    dotBuf_overflow _ _ _ _ _ _ _ (by decide)⟩

/-- C7 amended: for `int` dimensions with `m * n`, `n * p` and `m * p` at most
`INT_MAX` and every `m` by `n` matrix `A` of exact numbers (a semiring: no
infinity, no NaN), `dot` of `A` with the `n` by `p` zero matrix returns a
result whose first `m * p` cells are all 0, and for every `n` by `p` matrix
`B`, `dot` of the `m` by `n` zero matrix with `B` likewise. -/
theorem dot_zero {α : Type} [Semiring α] (m n p : Nat) (A B res : List α)
    (_hint : m ≤ INT_MAX ∧ n ≤ INT_MAX ∧ p ≤ INT_MAX)
    (hA : A.length = m * n) (hB : B.length = n * p) (hres : m * p ≤ res.length)
    (hmn : m * n ≤ INT_MAX) (hnp : n * p ≤ INT_MAX) (hmp : m * p ≤ INT_MAX) :
    (∃ out, dotBuf A m n (zeros n p) n p res = some out ∧
      ∀ i, i < m * p → out[i]? = some 0) ∧
    (∃ out, dotBuf (zeros m n) m n B n p res = some out ∧
      ∀ i, i < m * p → out[i]? = some 0) := by
  constructor
  · obtain ⟨out, hrun, _, hin, _⟩ := dotBuf_spec A m n (zeros n p) n p res rfl
      (le_of_eq hA.symm) (by simp [zeros]) hres hmn hnp hmp
    refine ⟨out, hrun, fun i hi => ?_⟩
    obtain ⟨hr, hc, he⟩ := idx_decode hi
    rw [← he, hin _ _ hr hc]
    congr 1
    exact Finset.sum_eq_zero (fun k _ => by rw [zeros_getD]; simp)
  · obtain ⟨out, hrun, _, hin, _⟩ := dotBuf_spec (zeros m n) m n B n p res rfl
      (by simp [zeros]) (le_of_eq hB.symm) hres hmn hnp hmp
    refine ⟨out, hrun, fun i hi => ?_⟩
    obtain ⟨hr, hc, he⟩ := idx_decode hi
    rw [← he, hin _ _ hr hc]
    congr 1
    exact Finset.sum_eq_zero (fun k _ => by rw [zeros_getD]; simp)

/-- Witness of C7: a 1 by 2 matrix, a 2 by 1 matrix and the zero matrices of
the same shapes. -/
theorem dot_zero_witness :
    (∃ out, dotBuf ([3, 4] : List ℤ) 1 2 (zeros 2 1) 2 1 [9] = some out ∧
      ∀ i, i < 1 * 1 → out[i]? = some 0) ∧
    (∃ out, dotBuf (zeros 1 2) 1 2 ([5, 6] : List ℤ) 2 1 [9] = some out ∧
      ∀ i, i < 1 * 1 → out[i]? = some 0) :=
  dot_zero 1 2 1 [3, 4] [5, 6] [9] (by decide) (by decide) (by decide) (by decide)
    (by decide) (by decide) (by decide)

/-- C8 as stated fails: with `A` of shape 2 by 1, `B` of shape
1 by 1073741825 and `C` of shape 1073741825 by 1, the product `dot(A,B)` has
an output index above `INT_MAX`, so the first call has undefined behaviour
and leaves no intermediate product. -/
theorem dot_assoc_counterexample :
    2 * 1 ≤ ([1, 2] : List ℤ).length ∧
    1 * 1073741825 ≤ (List.replicate 1073741825 (0 : ℤ)).length ∧
    2 * 1073741825 ≤ (List.replicate 2147483650 (0 : ℤ)).length ∧
    dotBuf ([1, 2] : List ℤ) 2 1 (List.replicate 1073741825 0) 1 1073741825
      (List.replicate 2147483650 0) = none :=
  ⟨by decide, le_of_le_of_eq (by decide) (List.length_replicate _ _).symm,
    le_of_le_of_eq (by decide) (List.length_replicate _ _).symm,
    dotBuf_overflow _ _ _ _ _ _ _ (by decide)⟩

/-- C8 amended: for `int` dimensions with the six shapes `m * n`, `n * p`,
`p * q`, `m * p`, `n * q`, `m * q` at most `INT_MAX` and all matrices `A`
(`m` by `n`), `B` (`n` by `p`), `C` (`p` by `q`) over exact numbers, the four
calls of `dot` return and `dot(dot(A,B),C)` and `dot(A,dot(B,C))` hold the
same value in each of the `m * q` cells of the result, each intermediate
product being passed on in the buffer and with the shape `dot` gave it. -/
theorem dot_assoc {α : Type} [Semiring α] (m n p q : Nat) (A B C r1 r2 r3 r4 : List α)
    (_hint : m ≤ INT_MAX ∧ n ≤ INT_MAX ∧ p ≤ INT_MAX ∧ q ≤ INT_MAX)
    (hA : m * n ≤ A.length) (hB : n * p ≤ B.length) (hC : p * q ≤ C.length)
    (h1 : m * p ≤ r1.length) (h2 : m * q ≤ r2.length)
    (h3 : n * q ≤ r3.length) (h4 : m * q ≤ r4.length)
    (hmn : m * n ≤ INT_MAX) (hnp : n * p ≤ INT_MAX) (hpq : p * q ≤ INT_MAX)
    (hmp : m * p ≤ INT_MAX) (hnq : n * q ≤ INT_MAX) (hmq : m * q ≤ INT_MAX) :
    ∃ ab abc bc abc',
      dotBuf A m n B n p r1 = some ab ∧ dotBuf ab m p C p q r2 = some abc ∧
      dotBuf B n p C p q r3 = some bc ∧ dotBuf A m n bc n q r4 = some abc' ∧
      ∀ i, i < m * q → ∃ v, abc[i]? = some v ∧ abc'[i]? = some v := by
  obtain ⟨ab, hab, lab, vab, _⟩ := dotBuf_spec A m n B n p r1 rfl hA hB h1 hmn hnp hmp
  obtain ⟨abc, habc, _, vabc, _⟩ := dotBuf_spec ab m p C p q r2 rfl (by omega) hC h2
    hmp hpq hmq
  obtain ⟨bc, hbc, lbc, vbc, _⟩ := dotBuf_spec B n p C p q r3 rfl hB hC h3 hnp hpq hnq
  obtain ⟨abc', habc', _, vabc', _⟩ := dotBuf_spec A m n bc n q r4 rfl hA (by omega) h4
    hmn hnq hmq
  refine ⟨ab, abc, bc, abc', hab, habc, hbc, habc', fun i hi => ?_⟩
  obtain ⟨hr, hc, he⟩ := idx_decode hi
  have e1 := vabc _ _ hr hc
  have e2 := vabc' _ _ hr hc
  rw [he] at e1 e2
  refine ⟨_, e1, ?_⟩
  rw [e2]
  congr 1
  symm
  calc ∑ l in Finset.range p, ab.getD (i / q * p + l) 0 * C.getD (l * q + i % q) 0
      = ∑ l in Finset.range p, (∑ k in Finset.range n,
          A.getD (i / q * n + k) 0 * B.getD (k * p + l) 0) * C.getD (l * q + i % q) 0 :=
        Finset.sum_congr rfl (fun l hl => by
          rw [getD_of_getElem? (vab _ _ hr (Finset.mem_range.1 hl))])
    _ = ∑ l in Finset.range p, ∑ k in Finset.range n,
          A.getD (i / q * n + k) 0 * B.getD (k * p + l) 0 * C.getD (l * q + i % q) 0 := by
        simp_rw [Finset.sum_mul]
    _ = ∑ k in Finset.range n, ∑ l in Finset.range p,
          A.getD (i / q * n + k) 0 * B.getD (k * p + l) 0 * C.getD (l * q + i % q) 0 :=
        Finset.sum_comm
    _ = ∑ k in Finset.range n, A.getD (i / q * n + k) 0 *
          ∑ l in Finset.range p, B.getD (k * p + l) 0 * C.getD (l * q + i % q) 0 := by
        simp_rw [Finset.mul_sum, mul_assoc]
    _ = ∑ k in Finset.range n, A.getD (i / q * n + k) 0 * bc.getD (k * q + i % q) 0 :=
        Finset.sum_congr rfl (fun k hk => by
          rw [getD_of_getElem? (vbc _ _ (Finset.mem_range.1 hk) hc)])

/-- Witness of C8: shapes 1 by 2, 2 by 1 and 1 by 2. -/
theorem dot_assoc_witness :
    ∃ ab abc bc abc',
      dotBuf ([1, 2] : List ℤ) 1 2 [3, 4] 2 1 [0] = some ab ∧
      dotBuf ab 1 1 [5, 6] 1 2 [0, 0] = some abc ∧
      dotBuf ([3, 4] : List ℤ) 2 1 [5, 6] 1 2 [0, 0, 0, 0] = some bc ∧
      dotBuf ([1, 2] : List ℤ) 1 2 bc 2 2 [7, 7] = some abc' ∧
      ∀ i, i < 1 * 2 → ∃ v, abc[i]? = some v ∧ abc'[i]? = some v :=
  dot_assoc 1 2 1 2 [1, 2] [3, 4] [5, 6] [0] [0, 0] [0, 0, 0, 0] [7, 7]
    (by decide) (by decide) (by decide) (by decide) (by decide) (by decide) (by decide)
    (by decide) (by decide) (by decide) (by decide) (by decide) (by decide) (by decide)

/-- C9 as stated fails: with `A` of shape 2 by 1 and `B`, `C` of shape
1 by 1073741825, the product `dot(A,B)` has an output index above `INT_MAX`,
so the call has undefined behaviour and there is nothing to add. -/
theorem dot_add_distrib_counterexample :
    2 * 1 ≤ ([3, 4] : List ℤ).length ∧
    1 * 1073741825 ≤ (List.replicate 1073741825 (0 : ℤ)).length ∧
    2 * 1073741825 ≤ (List.replicate 2147483650 (0 : ℤ)).length ∧
    dotBuf ([3, 4] : List ℤ) 2 1 (List.replicate 1073741825 0) 1 1073741825
      (List.replicate 2147483650 0) = none :=
  ⟨by decide, le_of_le_of_eq (by decide) (List.length_replicate _ _).symm,
    le_of_le_of_eq (by decide) (List.length_replicate _ _).symm,
    dotBuf_overflow _ _ _ _ _ _ _ (by decide)⟩

/-- C9 amended: multiplication distributes over addition, over exact numbers
and for `int` dimensions with `m * n`, `n * p` and `m * p` at most `INT_MAX`:
for `A` (`m` by `n`) and `B`, `C` (both `n` by `p`), `dot(A, add(B,C))` and
`add(dot(A,B), dot(A,C))` hold the same value in each of the `m * p` cells,
and for `A`, `D` (both `m` by `n`) and `B` (`n` by `p`), so do
`dot(add(A,D), B)` and `add(dot(A,B), dot(D,B))`; all the calls return. -/
theorem dot_add_distrib {α : Type} [Semiring α] (m n p : Nat)
    (A D B C r1 r2 r3 r4 r5 s1 s2 s3 s4 s5 : List α)
    (_hint : m ≤ INT_MAX ∧ n ≤ INT_MAX ∧ p ≤ INT_MAX)
    (hA : m * n ≤ A.length) (hD : m * n ≤ D.length)
    (hB : n * p ≤ B.length) (hC : n * p ≤ C.length)
    (h1 : n * p ≤ r1.length) (h2 : m * p ≤ r2.length) (h3 : m * p ≤ r3.length)
    (h4 : m * p ≤ r4.length) (h5 : m * p ≤ r5.length)
    (g1 : m * n ≤ s1.length) (g2 : m * p ≤ s2.length) (g3 : m * p ≤ s3.length)
    (g4 : m * p ≤ s4.length) (g5 : m * p ≤ s5.length)
    (hmn : m * n ≤ INT_MAX) (hnp : n * p ≤ INT_MAX) (hmp : m * p ≤ INT_MAX) :
    (∃ bc l ab ac r,
      addBuf B n p C r1 = some bc ∧ dotBuf A m n bc n p r2 = some l ∧
      dotBuf A m n B n p r3 = some ab ∧ dotBuf A m n C n p r4 = some ac ∧
      addBuf ab m p ac r5 = some r ∧
      ∀ i, i < m * p → ∃ v, l[i]? = some v ∧ r[i]? = some v) ∧
    (∃ ad l ab db r,
      addBuf A m n D s1 = some ad ∧ dotBuf ad m n B n p s2 = some l ∧
      dotBuf A m n B n p s3 = some ab ∧ dotBuf D m n B n p s4 = some db ∧
      addBuf ab m p db s5 = some r ∧
      ∀ i, i < m * p → ∃ v, l[i]? = some v ∧ r[i]? = some v) := by
  constructor
  · obtain ⟨bc, hbc, lbc, vbc, _⟩ := addBuf_spec B n p C r1 hB hC h1 hnp
    obtain ⟨l, hl, _, vl, _⟩ := dotBuf_spec A m n bc n p r2 rfl hA (by omega) h2
      hmn hnp hmp
    obtain ⟨ab, hab, lab, vab, _⟩ := dotBuf_spec A m n B n p r3 rfl hA hB h3 hmn hnp hmp
    obtain ⟨ac, hac, lac, vac, _⟩ := dotBuf_spec A m n C n p r4 rfl hA hC h4 hmn hnp hmp
    obtain ⟨r, hr, _, vr, _⟩ := addBuf_spec ab m p ac r5 (by omega) (by omega) h5 hmp
    refine ⟨bc, l, ab, ac, r, hbc, hl, hab, hac, hr, fun i hi => ?_⟩
    obtain ⟨hrow, hcol, he⟩ := idx_decode hi
    have e1 := vl _ _ hrow hcol
    have e2 := vr _ _ hrow hcol
    rw [getD_of_getElem? (vab _ _ hrow hcol), getD_of_getElem? (vac _ _ hrow hcol),
      ← Finset.sum_add_distrib] at e2
    rw [he] at e1 e2
    refine ⟨_, e1, ?_⟩
    rw [e2]
    congr 1
    exact Finset.sum_congr rfl (fun k hk => by
      rw [getD_of_getElem? (vbc _ _ (Finset.mem_range.1 hk) hcol), mul_add])
  · obtain ⟨ad, had, lad, vad, _⟩ := addBuf_spec A m n D s1 hA hD g1 hmn
    obtain ⟨l, hl, _, vl, _⟩ := dotBuf_spec ad m n B n p s2 rfl (by omega) hB g2
      hmn hnp hmp
    obtain ⟨ab, hab, lab, vab, _⟩ := dotBuf_spec A m n B n p s3 rfl hA hB g3 hmn hnp hmp
    obtain ⟨db, hdb, ldb, vdb, _⟩ := dotBuf_spec D m n B n p s4 rfl hD hB g4 hmn hnp hmp
    obtain ⟨r, hr, _, vr, _⟩ := addBuf_spec ab m p db s5 (by omega) (by omega) g5 hmp
    refine ⟨ad, l, ab, db, r, had, hl, hab, hdb, hr, fun i hi => ?_⟩
    obtain ⟨hrow, hcol, he⟩ := idx_decode hi
    have e1 := vl _ _ hrow hcol
    have e2 := vr _ _ hrow hcol
    rw [getD_of_getElem? (vab _ _ hrow hcol), getD_of_getElem? (vdb _ _ hrow hcol),
      ← Finset.sum_add_distrib] at e2
    rw [he] at e1 e2
    refine ⟨_, e1, ?_⟩
    rw [e2]
    congr 1
    exact Finset.sum_congr rfl (fun k hk => by
      rw [getD_of_getElem? (vad _ _ hrow (Finset.mem_range.1 hk)), add_mul])

/-- Witness of C9: `A`, `D` of shape 1 by 2 and `B`, `C` of shape 2 by 1. -/
theorem dot_add_distrib_witness :
    (∃ bc l ab ac r,
      addBuf ([3, 4] : List ℤ) 2 1 [5, 6] [0, 0] = some bc ∧
      dotBuf ([1, 2] : List ℤ) 1 2 bc 2 1 [0] = some l ∧
      dotBuf ([1, 2] : List ℤ) 1 2 [3, 4] 2 1 [0] = some ab ∧
      dotBuf ([1, 2] : List ℤ) 1 2 [5, 6] 2 1 [0] = some ac ∧
      addBuf ab 1 1 ac [0] = some r ∧
      ∀ i, i < 1 * 1 → ∃ v, l[i]? = some v ∧ r[i]? = some v) ∧
    (∃ ad l ab db r,
      addBuf ([1, 2] : List ℤ) 1 2 [7, 8] [0, 0] = some ad ∧
      dotBuf ad 1 2 ([3, 4] : List ℤ) 2 1 [0] = some l ∧
      dotBuf ([1, 2] : List ℤ) 1 2 [3, 4] 2 1 [0] = some ab ∧
      dotBuf ([7, 8] : List ℤ) 1 2 [3, 4] 2 1 [0] = some db ∧
      addBuf ab 1 1 db [0] = some r ∧
      ∀ i, i < 1 * 1 → ∃ v, l[i]? = some v ∧ r[i]? = some v) :=
  dot_add_distrib 1 2 1 [1, 2] [7, 8] [3, 4] [5, 6] [0, 0] [0] [0] [0] [0]
    [0, 0] [0] [0] [0] [0] (by decide)
    (by decide) (by decide) (by decide) (by decide) (by decide) (by decide) (by decide)
    (by decide) (by decide) (by decide) (by decide) (by decide) (by decide) (by decide)
    (by decide) (by decide) (by decide)

/-- C10 as stated fails: for a 3 by 715827883 matrix `A` the index
`row * cols + col` exceeds `INT_MAX`, so the call of `add` with the zero
matrix has undefined behaviour. -/
theorem add_zero_right_counterexample :
    (List.replicate 2147483649 (5 : ℤ)).length = 3 * 715827883 ∧
    3 * 715827883 ≤ (List.replicate 2147483649 (0 : ℤ)).length ∧
    addBuf (List.replicate 2147483649 (5 : ℤ)) 3 715827883 (zeros 3 715827883)
      (List.replicate 2147483649 0) = none :=
  ⟨(List.length_replicate _ _).trans (by decide),
    le_of_le_of_eq (by decide) (List.length_replicate _ _).symm,
    addBuf_overflow _ _ _ _ _ (by decide)⟩

/-- C10 amended: for `int` dimensions with `rows * cols <= INT_MAX` and every
`rows` by `cols` matrix `A`, `add` of `A` and the all-zero `rows` by `cols`
matrix returns and leaves the first `rows * cols` cells of the result equal
to `A` cell for cell. -/
theorem add_zero_right {α : Type} [AddZeroClass α] (rows cols : Nat) (A res : List α)
    (_hint : rows ≤ INT_MAX ∧ cols ≤ INT_MAX)
    (hA : A.length = rows * cols) (hres : rows * cols ≤ res.length)
    (hs : rows * cols ≤ INT_MAX) :
    ∃ out, addBuf A rows cols (zeros rows cols) res = some out ∧
      ∀ i, i < rows * cols → out[i]? = A[i]? := by
  obtain ⟨out, hrun, _, hin, _⟩ := addBuf_spec A rows cols (zeros rows cols) res
    (le_of_eq hA.symm) (by simp [zeros]) hres hs
  refine ⟨out, hrun, fun i hi => ?_⟩
  obtain ⟨hr, hc, he⟩ := idx_decode hi
  rw [← he, hin _ _ hr hc, zeros_getD, add_zero,
    getElem?_eq_some_getD 0 (by rw [hA, he]; exact hi)]

/-- Witness of C10: a 2 by 2 matrix. -/
theorem add_zero_right_witness :
    ∃ out, addBuf ([1, 2, 3, 4] : List ℤ) 2 2 (zeros 2 2) [9, 9, 9, 9] = some out ∧
      ∀ i, i < 2 * 2 → out[i]? = ([1, 2, 3, 4] : List ℤ)[i]? :=
  add_zero_right 2 2 [1, 2, 3, 4] [9, 9, 9, 9] (by decide) (by decide) (by decide)
    (by decide)

/-- C11 as stated fails, twice: on doubles `inf - inf` is NaN, so `sub(A, A)`
with `A = [inf, 1]` leaves `[NaN, 0]`; and for a 2 by 1073741825 matrix the
index `row * cols + col` exceeds `INT_MAX`, so the call has undefined
behaviour. -/
theorem sub_self_zero_counterexample :
    sub ([[Dbl.pinf, Dbl.fin 1], [Dbl.fin 7, Dbl.fin 7]] : Mem Dbl) 0 1 2 0 1
      = some [[Dbl.pinf, Dbl.fin 1], [Dbl.nan, Dbl.fin 0]] ∧
    [Dbl.nan, Dbl.fin 0] ≠ [(0 : Dbl), 0] ∧
    (List.replicate 2147483650 (3 : ℤ)).length = 2 * 1073741825 ∧
    sub ([List.replicate 2147483650 3, List.replicate 2147483650 0] : Mem ℤ)
      0 2 1073741825 0 1 = none :=
  ⟨by decide, by decide, (List.length_replicate _ _).trans (by decide),
    sub_overflow _ _ _ _ _ _ (by decide)⟩

/-- C11 amended: for `int` dimensions with `rows * cols <= INT_MAX` and every
`rows` by `cols` matrix `A` of exact numbers (an additive group: no infinity,
no NaN), `sub` called with `A` as both inputs returns and leaves the first
`rows * cols` cells of the result all equal to 0. -/
theorem sub_self_zero {α : Type} [AddGroup α] (mem : Mem α) (pA rows cols res : Nat)
    (A r0 : List α) (hA : mem[pA]? = some A) (hr : mem[res]? = some r0)
    (_hint : rows ≤ INT_MAX ∧ cols ≤ INT_MAX)
    (hlA : A.length = rows * cols) (hlr : rows * cols ≤ r0.length)
    (hs : rows * cols ≤ INT_MAX) :
    ∃ mem' out, sub mem pA rows cols pA res = some mem' ∧ mem'[res]? = some out ∧
      ∀ i, i < rows * cols → out[i]? = some 0 := by
  obtain ⟨mem', hrun, hF⟩ := sub_filled mem pA rows cols pA res A A r0 hA hA hr
    (le_of_eq hlA.symm) (le_of_eq hlA.symm) hlr hs
  obtain ⟨out, ho, _, hin, _, _⟩ := hF.result hr
  refine ⟨mem', out, hrun, ho, fun i hi => ?_⟩
  obtain ⟨hrow, hcol, he⟩ := idx_decode hi
  rw [← he, hin _ _ hrow hcol, sub_self]

/-- Witness of C11: a 2 by 2 matrix. -/
theorem sub_self_zero_witness :
    ∃ mem' out, sub ([[1, 2, 3, 4], [9, 9, 9, 9]] : Mem ℤ) 0 2 2 0 1 = some mem' ∧
      mem'[1]? = some out ∧ ∀ i, i < 2 * 2 → out[i]? = some 0 :=
  sub_self_zero ([[1, 2, 3, 4], [9, 9, 9, 9]] : Mem ℤ) 0 2 2 1 [1, 2, 3, 4] [9, 9, 9, 9]
    rfl rfl (by decide) (by decide) (by decide) (by decide)

/-- C12 as stated fails: for 1073741825 by 2 matrices the index
`row * cols + col` exceeds `INT_MAX`, so `add(A, B)` has undefined behaviour
and leaves no cells to compare. -/
theorem add_comm_cells_counterexample :
    1073741825 * 2 ≤ (List.replicate 2147483650 (1 : ℤ)).length ∧
    1073741825 * 2 ≤ (List.replicate 2147483650 (2 : ℤ)).length ∧
    addBuf (List.replicate 2147483650 (1 : ℤ)) 1073741825 2 (List.replicate 2147483650 2)
      (List.replicate 2147483650 0) = none :=
  ⟨le_of_le_of_eq (by decide) (List.length_replicate _ _).symm,
    le_of_le_of_eq (by decide) (List.length_replicate _ _).symm,
    addBuf_overflow _ _ _ _ _ (by decide)⟩

/-- C12 amended: for `int` dimensions with `rows * cols <= INT_MAX` and all
`rows` by `cols` matrices `A` and `B`, `add(A, B)` and `add(B, A)` both
return and each of the first `rows * cols` cells holds the same value in the
two result buffers; this needs of the arithmetic only that addition is
commutative. -/
theorem add_comm_cells {α : Type} [Zero α] [AddCommMagma α] (rows cols : Nat)
    (A B res res' : List α)
    (_hint : rows ≤ INT_MAX ∧ cols ≤ INT_MAX)
    (hA : rows * cols ≤ A.length) (hB : rows * cols ≤ B.length)
    (hr : rows * cols ≤ res.length) (hr' : rows * cols ≤ res'.length)
    (hs : rows * cols ≤ INT_MAX) :
    ∃ out out', addBuf A rows cols B res = some out ∧
      addBuf B rows cols A res' = some out' ∧
      ∀ i, i < rows * cols → ∃ v, out[i]? = some v ∧ out'[i]? = some v := by
  obtain ⟨out, hrun, _, hin, _⟩ := addBuf_spec A rows cols B res hA hB hr hs
  obtain ⟨out', hrun', _, hin', _⟩ := addBuf_spec B rows cols A res' hB hA hr' hs
  refine ⟨out, out', hrun, hrun', fun i hi => ?_⟩
  obtain ⟨hrow, hcol, he⟩ := idx_decode hi
  have e1 := hin _ _ hrow hcol
  have e2 := hin' _ _ hrow hcol
  rw [he] at e1 e2
  exact ⟨_, e1, by rw [e2, add_comm]⟩

/-- Witness of C12: two 1 by 2 matrices. -/
theorem add_comm_cells_witness :
    ∃ out out', addBuf ([1, 2] : List ℤ) 1 2 [3, 4] [0, 0] = some out ∧
      addBuf ([3, 4] : List ℤ) 1 2 [1, 2] [7, 7] = some out' ∧
      ∀ i, i < 1 * 2 → ∃ v, out[i]? = some v ∧ out'[i]? = some v :=
  add_comm_cells 1 2 [1, 2] [3, 4] [0, 0] [7, 7]
    (by decide) (by decide) (by decide) (by decide) (by decide) (by decide)

/-- C13: for all scalars `x` and `y`, `dot` with `a = [x]`, `b = [y]` and all
four dimensions equal to 1 returns and writes exactly `result[0] = x * y`. -/
theorem dot_one_by_one {α : Type} [Semiring α] (x y w : α) :
    dotBuf [x] 1 1 [y] 1 1 [w] = some [x * y] := by
  simp [dotBuf, dot, forLoop, loadAt, storeAt, cellIndex, intMul, intAdd, INT_MAX,
    load, store]

/-- C14 as stated fails: with `rows = 2`, `cols = 1073741825` and buffers `a`,
`b` of `2147483650` cells, the index `row * cols + col` exceeds `INT_MAX`, so
the in-place call of `add` has undefined behaviour, and so has `sub`. -/
theorem inplace_add_sub_counterexample :
    2 * 1073741825 ≤ (List.replicate 2147483650 (1 : ℤ)).length ∧
    2 * 1073741825 ≤ (List.replicate 2147483650 (2 : ℤ)).length ∧
    add ([List.replicate 2147483650 1, List.replicate 2147483650 2] : Mem ℤ)
      0 2 1073741825 1 0 = none ∧
    sub ([List.replicate 2147483650 1, List.replicate 2147483650 2] : Mem ℤ)
      0 2 1073741825 1 1 = none :=
  ⟨le_of_le_of_eq (by decide) (List.length_replicate _ _).symm,
    le_of_le_of_eq (by decide) (List.length_replicate _ _).symm,
    add_overflow _ _ _ _ _ _ (by decide), sub_overflow _ _ _ _ _ _ (by decide)⟩

/-- C14 amended: in-place use of `add` and `sub` is safe for `int` dimensions
with `rows * cols <= INT_MAX`: for buffers `a` and `b` of at least
`rows * cols` cells, the call with the result being the very buffer `a`, or
the very buffer `b`, returns and leaves in that buffer the same first
`rows * cols` values as the call on a separate result buffer, namely
`a[i] + b[i]` (for `sub`, `a[i] - b[i]`) of the values held at the call. -/
theorem inplace_add_sub {α : Type} [Zero α] [Add α] [Sub α] (mem : Mem α)
    (pa pb rows cols : Nat) (a b res : List α)
    (ha : mem[pa]? = some a) (hb : mem[pb]? = some b)
    (_hint : rows ≤ INT_MAX ∧ cols ≤ INT_MAX)
    (hla : rows * cols ≤ a.length) (hlb : rows * cols ≤ b.length)
    (hlr : rows * cols ≤ res.length) (hs : rows * cols ≤ INT_MAX) :
    (∃ sep ma oa mb ob, addBuf a rows cols b res = some sep ∧
      add mem pa rows cols pb pa = some ma ∧ ma[pa]? = some oa ∧
      add mem pa rows cols pb pb = some mb ∧ mb[pb]? = some ob ∧
      ∀ i, i < rows * cols →
        oa[i]? = sep[i]? ∧ ob[i]? = sep[i]? ∧ sep[i]? = some (a.getD i 0 + b.getD i 0)) ∧
    (∃ sep ma oa mb ob, subBuf a rows cols b res = some sep ∧
      sub mem pa rows cols pb pa = some ma ∧ ma[pa]? = some oa ∧
      sub mem pa rows cols pb pb = some mb ∧ mb[pb]? = some ob ∧
      ∀ i, i < rows * cols →
        oa[i]? = sep[i]? ∧ ob[i]? = sep[i]? ∧ sep[i]? = some (a.getD i 0 - b.getD i 0)) := by
  constructor
  · obtain ⟨sep, hsep, _, vsep, _⟩ := addBuf_spec a rows cols b res hla hlb hlr hs
    obtain ⟨ma, hma, hFa⟩ := add_filled mem pa rows cols pb pa a b a ha hb ha hla hlb hla hs
    obtain ⟨oa, hoa, _, va, _, _⟩ := hFa.result ha
    obtain ⟨mb, hmb, hFb⟩ := add_filled mem pa rows cols pb pb a b b ha hb hb hla hlb hlb hs
    obtain ⟨ob, hob, _, vb, _, _⟩ := hFb.result hb
    refine ⟨sep, ma, oa, mb, ob, hsep, hma, hoa, hmb, hob, fun i hi => ?_⟩
    obtain ⟨hrow, hcol, he⟩ := idx_decode hi
    rw [← he, va _ _ hrow hcol, vb _ _ hrow hcol, vsep _ _ hrow hcol]
    exact ⟨rfl, rfl, rfl⟩
  · obtain ⟨sep, hsep, _, vsep, _⟩ := subBuf_spec a rows cols b res hla hlb hlr hs
    obtain ⟨ma, hma, hFa⟩ := sub_filled mem pa rows cols pb pa a b a ha hb ha hla hlb hla hs
    obtain ⟨oa, hoa, _, va, _, _⟩ := hFa.result ha
    obtain ⟨mb, hmb, hFb⟩ := sub_filled mem pa rows cols pb pb a b b ha hb hb hla hlb hlb hs
    obtain ⟨ob, hob, _, vb, _, _⟩ := hFb.result hb
    refine ⟨sep, ma, oa, mb, ob, hsep, hma, hoa, hmb, hob, fun i hi => ?_⟩
    obtain ⟨hrow, hcol, he⟩ := idx_decode hi
    rw [← he, va _ _ hrow hcol, vb _ _ hrow hcol, vsep _ _ hrow hcol]
    exact ⟨rfl, rfl, rfl⟩

/-- Witness of C14: two 2 by 2 matrices in a memory of two buffers. -/
theorem inplace_add_sub_witness :
    (∃ sep ma oa mb ob, addBuf ([1, 2, 3, 4] : List ℤ) 2 2 [5, 6, 7, 8] [0, 0, 0, 0] = some sep ∧
      add ([[1, 2, 3, 4], [5, 6, 7, 8]] : Mem ℤ) 0 2 2 1 0 = some ma ∧ ma[0]? = some oa ∧
      add ([[1, 2, 3, 4], [5, 6, 7, 8]] : Mem ℤ) 0 2 2 1 1 = some mb ∧ mb[1]? = some ob ∧
      ∀ i, i < 2 * 2 →
        oa[i]? = sep[i]? ∧ ob[i]? = sep[i]? ∧
        sep[i]? = some (([1, 2, 3, 4] : List ℤ).getD i 0 + ([5, 6, 7, 8] : List ℤ).getD i 0)) ∧
    (∃ sep ma oa mb ob, subBuf ([1, 2, 3, 4] : List ℤ) 2 2 [5, 6, 7, 8] [0, 0, 0, 0] = some sep ∧
      sub ([[1, 2, 3, 4], [5, 6, 7, 8]] : Mem ℤ) 0 2 2 1 0 = some ma ∧ ma[0]? = some oa ∧
      sub ([[1, 2, 3, 4], [5, 6, 7, 8]] : Mem ℤ) 0 2 2 1 1 = some mb ∧ mb[1]? = some ob ∧
      ∀ i, i < 2 * 2 →
        oa[i]? = sep[i]? ∧ ob[i]? = sep[i]? ∧
        sep[i]? = some (([1, 2, 3, 4] : List ℤ).getD i 0 - ([5, 6, 7, 8] : List ℤ).getD i 0)) :=
  inplace_add_sub ([[1, 2, 3, 4], [5, 6, 7, 8]] : Mem ℤ) 0 1 2 2 [1, 2, 3, 4] [5, 6, 7, 8]
    [0, 0, 0, 0] rfl rfl (by decide) (by decide) (by decide) (by decide) (by decide)

/-- C15 as stated fails: with `a` of shape 2 by 1, `b` of shape
1 by 1073741825 and buffers of the sizes the claim asks for, the index
written to `res` exceeds `INT_MAX` (signed overflow, the wrapped index is
negative), so the call leaves the bounds of `res`. -/
theorem dot_in_bounds_counterexample :
    2 * 1 ≤ ([1, 1] : List ℤ).length ∧
    1 * 1073741825 ≤ (List.replicate 1073741825 (1 : ℤ)).length ∧
    2 * 1073741825 ≤ (List.replicate 2147483650 (0 : ℤ)).length ∧
    cellIndex 1 1073741825 1073741824 = none ∧
    dot ([[1, 1], List.replicate 1073741825 1, List.replicate 2147483650 0] : Mem ℤ)
      0 2 1 1 1 1073741825 2 = none :=
  ⟨by decide, le_of_le_of_eq (by decide) (List.length_replicate _ _).symm,
    le_of_le_of_eq (by decide) (List.length_replicate _ _).symm, by decide,
    dot_overflow _ _ _ _ _ _ _ _ (by decide)⟩

/-- C15 amended: for every call of `dot` with `int` dimensions,
`a_cols = b_rows`, the three shapes of at most `INT_MAX` cells and buffers
`a`, `b`, `res` of at least `a_rows * a_cols`, `b_rows * b_cols`,
`a_rows * b_cols` cells (whichever of them coincide), every index read from
`a`, every index read from `b` and every index written to `res` is computed
without overflow and is inside its buffer, and the call returns: the
out-of-bounds branch is never reached. -/
theorem dot_in_bounds {α : Type} [Zero α] [Add α] [Mul α] (mem : Mem α)
    (m1 a_rows a_cols m2 b_rows b_cols res : Nat) (a b r0 : List α)
    (ha : mem[m1]? = some a) (hb : mem[m2]? = some b) (hr : mem[res]? = some r0)
    (_hint : a_rows ≤ INT_MAX ∧ a_cols ≤ INT_MAX ∧ b_rows ≤ INT_MAX ∧ b_cols ≤ INT_MAX)
    (hdim : a_cols = b_rows)
    (hla : a_rows * a_cols ≤ a.length) (hlb : b_rows * b_cols ≤ b.length)
    (hlr : a_rows * b_cols ≤ r0.length)
    (hsa : a_rows * a_cols ≤ INT_MAX) (hsb : b_rows * b_cols ≤ INT_MAX)
    (hsr : a_rows * b_cols ≤ INT_MAX) :
    (∀ row k, row < a_rows → k < b_rows →
      ∃ i, cellIndex row a_cols k = some i ∧ i < a.length) ∧
    (∀ k col, k < b_rows → col < b_cols →
      ∃ i, cellIndex k b_cols col = some i ∧ i < b.length) ∧
    (∀ row col, row < a_rows → col < b_cols →
      ∃ i, cellIndex row b_cols col = some i ∧ i < r0.length) ∧
    ∃ mem', dot mem m1 a_rows a_cols m2 b_rows b_cols res = some mem' := by
  refine ⟨fun row k hrow hk => ?_, fun k col hk hcol => ?_, fun row col hrow hcol => ?_, ?_⟩
  · have h : row * a_cols + k < a_rows * a_cols := idx_lt hrow (by omega)
    exact ⟨_, cellIndex_of_le (by omega), by omega⟩
  · have h : k * b_cols + col < b_rows * b_cols := idx_lt hk hcol
    exact ⟨_, cellIndex_of_le (by omega), by omega⟩
  · have h : row * b_cols + col < a_rows * b_cols := idx_lt hrow hcol
    exact ⟨_, cellIndex_of_le (by omega), by omega⟩
  · obtain ⟨mem', hrun, _⟩ := dot_returns mem m1 a_rows a_cols m2 b_rows b_cols res a b r0
      ha hb hr (le_of_eq hdim.symm) hla hlb hlr hsa hsb hsr
    exact ⟨mem', hrun⟩

/-- Witness of C15: a 2 by 2 product written over its own first input. -/
theorem dot_in_bounds_witness :
    (∀ row k, row < 2 → k < 2 →
      ∃ i, cellIndex row 2 k = some i ∧ i < ([1, 2, 3, 4] : List ℤ).length) ∧
    (∀ k col, k < 2 → col < 2 →
      ∃ i, cellIndex k 2 col = some i ∧ i < ([5, 6, 7, 8] : List ℤ).length) ∧
    (∀ row col, row < 2 → col < 2 →
      ∃ i, cellIndex row 2 col = some i ∧ i < ([1, 2, 3, 4] : List ℤ).length) ∧
    ∃ mem', dot ([[1, 2, 3, 4], [5, 6, 7, 8]] : Mem ℤ) 0 2 2 1 2 2 0 = some mem' :=
  dot_in_bounds ([[1, 2, 3, 4], [5, 6, 7, 8]] : Mem ℤ) 0 2 2 1 2 2 0
    [1, 2, 3, 4] [5, 6, 7, 8] [1, 2, 3, 4] rfl rfl rfl (by decide) rfl
    (by decide) (by decide) (by decide) (by decide) (by decide) (by decide)

/-- C16 as stated fails: with `a` of shape 1 by 2 and `b` of shape 1 by 1 the
inner dimensions differ, the buffers have exactly their declared sizes, and
the call makes no access out of bounds. -/
theorem dot_mismatch_counterexample :
    ¬ ∀ (a_rows a_cols b_rows b_cols : Nat) (a b r : List ℤ),
      0 < a_rows → 0 < a_cols → 0 < b_rows → 0 < b_cols → a_cols ≠ b_rows →
      a.length = a_rows * a_cols → b.length = b_rows * b_cols →
      r.length = a_rows * b_cols →
      dot [a, b, r] 0 a_rows a_cols 1 b_rows b_cols 2 = none := by
  intro h
  have h1 := h 1 2 1 1 [1, 2] [3] [0] (by decide) (by decide) (by decide) (by decide)
    (by decide) (by decide) (by decide) (by decide)
  exact absurd h1 (by decide)

/-- C16 amended: for every call of `dot` with positive `int` dimensions,
mismatched inner dimensions, the three shapes of at most `INT_MAX` cells and
buffers of exactly the sizes their shapes imply, the call makes an access out
of bounds if and only if `a_cols < b_rows`; when `a_cols > b_rows` every
access is in bounds and the call returns. -/
theorem dot_mismatch_out_of_bounds_iff {α : Type} [Zero α] [Add α] [Mul α] (mem : Mem α)
    (m1 a_rows a_cols m2 b_rows b_cols res : Nat) (a b r0 : List α)
    (ha : mem[m1]? = some a) (hb : mem[m2]? = some b) (hr : mem[res]? = some r0)
    (_hint : a_rows ≤ INT_MAX ∧ a_cols ≤ INT_MAX ∧ b_rows ≤ INT_MAX ∧ b_cols ≤ INT_MAX)
    (hpr : 0 < a_rows) (_hpc : 0 < a_cols) (_hqr : 0 < b_rows) (hqc : 0 < b_cols)
    (_hne : a_cols ≠ b_rows)
    (hla : a.length = a_rows * a_cols) (hlb : b.length = b_rows * b_cols)
    (hlr : r0.length = a_rows * b_cols)
    (hsa : a_rows * a_cols ≤ INT_MAX) (hsb : b_rows * b_cols ≤ INT_MAX)
    (hsr : a_rows * b_cols ≤ INT_MAX) :
    dot mem m1 a_rows a_cols m2 b_rows b_cols res = none ↔ a_cols < b_rows := by
  constructor
  · intro hnone
    by_contra hge
    obtain ⟨mem', hrun, _⟩ := dot_returns mem m1 a_rows a_cols m2 b_rows b_cols res a b r0
      ha hb hr (by omega) (le_of_eq hla.symm) (le_of_eq hlb.symm) (le_of_eq hlr.symm)
      hsa hsb hsr
    rw [hnone] at hrun
    exact absurd hrun (by simp)
  · intro hlt
    unfold dot
    apply forLoop_none _ b_cols 0 mem hqc
    intro mem1 hm1
    simp only [forLoop, Option.some.injEq] at hm1
    subst hm1
    apply forLoop_none _ a_rows (a_rows - 1) mem (by omega)
    intro mem2 hm2
    have hF : FrameOf (a_rows * b_cols) res mem mem2 := by
      refine forLoop_some_inv _ (FrameOf (a_rows * b_cols) res mem) _ _ _ hm2
        (FrameOf.refl _ _ _) ?_
      intro R s1 s2 hR hI hs
      split at hs
      · exact hI.store_of_some (idx_lt (by omega) hqc) (storeAt_some hs)
      · exact absurd hs (by simp)
    have hidx : a.length ≤ (a_rows - 1) * a_cols + a_cols := by
      rw [hla, ← Nat.succ_mul]
      exact Nat.mul_le_mul_right _ (by omega)
    have hin : forLoop (fun k tmp =>
        match loadAt mem2 m1 (a_rows - 1) a_cols k, loadAt mem2 m2 k b_cols 0 with
        | some x, some y => some (tmp + x * y)
        | _, _ => none) b_rows (0 : α) = none := by
      apply forLoop_none _ b_rows a_cols 0 hlt
      intro t _
      simp only [loadAt_none (hF.load_none ha hidx)]
    simp only [hin]

/-- Witness of C16 amended: `a` of shape 1 by 1 and `b` of shape 2 by 1. -/
theorem dot_mismatch_out_of_bounds_iff_witness :
    dot ([[1], [3, 4], [0]] : Mem ℤ) 0 1 1 1 2 1 2 = none ↔ 1 < 2 :=
  dot_mismatch_out_of_bounds_iff ([[1], [3, 4], [0]] : Mem ℤ) 0 1 1 1 2 1 2 [1] [3, 4] [0]
    rfl rfl rfl (by decide) (by decide) (by decide) (by decide) (by decide) (by decide)
    (by decide) (by decide) (by decide) (by decide) (by decide) (by decide)

/-- C17 as stated fails: with `a` of shape 2 by 1, `b` of shape
1 by 1073741825, `res` apart from both and the buffers as large as the
preconditions ask, the output index exceeds `INT_MAX` in either traversal,
so neither loop nest leaves a result buffer. -/
theorem dot_traversal_order_counterexample :
    2 * 1 ≤ ([1, 2] : List ℤ).length ∧
    1 * 1073741825 ≤ (List.replicate 1073741825 (3 : ℤ)).length ∧
    2 * 1073741825 ≤ (List.replicate 2147483650 (0 : ℤ)).length ∧
    dot ([[1, 2], List.replicate 1073741825 3, List.replicate 2147483650 0] : Mem ℤ)
      0 2 1 1 1 1073741825 2 = none ∧
    dotRowOuter ([[1, 2], List.replicate 1073741825 3, List.replicate 2147483650 0] : Mem ℤ)
      0 2 1 1 1 1073741825 2 = none :=
  ⟨by decide, le_of_le_of_eq (by decide) (List.length_replicate _ _).symm,
    le_of_le_of_eq (by decide) (List.length_replicate _ _).symm,
    dot_overflow _ _ _ _ _ _ _ _ (by decide),
    dotRowOuter_overflow _ _ _ _ _ _ _ _ (by decide)⟩

/-- C17 amended: traversal order does not affect the output of `dot`: under
the preconditions of `dot` (the output apart from the inputs), for `int`
dimensions with the three shapes of at most `INT_MAX` cells, the loop nest of
the source (output column outermost, then row, then `k`) returns, and the
variant with rows outermost and columns in the middle returns the very same
memory; this holds for any arithmetic, exact or not. -/
theorem dot_traversal_order {α : Type} [Zero α] [Add α] [Mul α] (mem : Mem α)
    (m1 a_rows a_cols m2 b_rows b_cols res : Nat) (a b r0 : List α)
    (h1 : res ≠ m1) (h2 : res ≠ m2)
    (ha : mem[m1]? = some a) (hb : mem[m2]? = some b) (hr : mem[res]? = some r0)
    (_hint : a_rows ≤ INT_MAX ∧ a_cols ≤ INT_MAX ∧ b_rows ≤ INT_MAX ∧ b_cols ≤ INT_MAX)
    (hdim : a_cols = b_rows)
    (hla : a_rows * a_cols ≤ a.length) (hlb : b_rows * b_cols ≤ b.length)
    (hlr : a_rows * b_cols ≤ r0.length)
    (hsa : a_rows * a_cols ≤ INT_MAX) (hsb : b_rows * b_cols ≤ INT_MAX)
    (hsr : a_rows * b_cols ≤ INT_MAX) :
    ∃ mem', dot mem m1 a_rows a_cols m2 b_rows b_cols res = some mem' ∧
      dotRowOuter mem m1 a_rows a_cols m2 b_rows b_cols res = some mem' := by
  obtain ⟨mc, hc, hFc⟩ := fill_loops
    (fun R C => (forLoop (fun k tmp =>
        match loadAt mem m1 R a_cols k, loadAt mem m2 k b_cols C with
        | some x, some y => some (tmp + x * y)
        | _, _ => none) b_rows (0 : α)).getD 0)
    (fun R C mem2 =>
      match forLoop (fun k tmp =>
        match loadAt mem2 m1 R a_cols k, loadAt mem2 m2 k b_cols C with
        | some x, some y => some (tmp + x * y)
        | _, _ => none) b_rows (0 : α) with
      | some tmp => storeAt mem2 res R b_cols C tmp
      | none => none) hr hlr
    (fun R C mem2 hR hC hI =>
      cell_step (Ne.symm h1) (Ne.symm h2) ha hb hdim hla hlb hsa hsb hsr hI hR hC)
  obtain ⟨mr, hrw, hFr⟩ := fill_loops_rows
    (fun R C => (forLoop (fun k tmp =>
        match loadAt mem m1 R a_cols k, loadAt mem m2 k b_cols C with
        | some x, some y => some (tmp + x * y)
        | _, _ => none) b_rows (0 : α)).getD 0)
    (fun R C mem2 =>
      match forLoop (fun k tmp =>
        match loadAt mem2 m1 R a_cols k, loadAt mem2 m2 k b_cols C with
        | some x, some y => some (tmp + x * y)
        | _, _ => none) b_rows (0 : α) with
      | some tmp => storeAt mem2 res R b_cols C tmp
      | none => none) hr hlr
    (fun R C mem2 hR hC hI =>
      cell_step (Ne.symm h1) (Ne.symm h2) ha hb hdim hla hlb hsa hsb hsr hI hR hC)
  have e : mr = mc := hFr.unique hFc
  subst e
  exact ⟨mr, hc, hrw⟩

/-- Witness of C17: a 2 by 1 times 1 by 2 product. -/
theorem dot_traversal_order_witness :
    ∃ mem', dot ([[1, 2], [3, 4], [0, 0, 0, 0]] : Mem ℤ) 0 2 1 1 1 2 2 = some mem' ∧
      dotRowOuter ([[1, 2], [3, 4], [0, 0, 0, 0]] : Mem ℤ) 0 2 1 1 1 2 2 = some mem' :=
  dot_traversal_order ([[1, 2], [3, 4], [0, 0, 0, 0]] : Mem ℤ) 0 2 1 1 1 2 2
    [1, 2] [3, 4] [0, 0, 0, 0] (by decide) (by decide) rfl rfl rfl (by decide) rfl
    (by decide) (by decide) (by decide) (by decide) (by decide) (by decide)

/-- C18 as stated fails: with `a_rows = 2`, `b_cols = 1073741825`,
`a_cols = b_rows = 1` and a result buffer of `2147483651` cells, the index
written to the result exceeds `INT_MAX` (signed overflow), so the call has
undefined behaviour and keeps no cell of the result by contract. -/
theorem dot_frame_counterexample :
    2 * 1 ≤ ([1, 2] : List ℤ).length ∧
    1 * 1073741825 ≤ (List.replicate 1073741825 (3 : ℤ)).length ∧
    2 * 1073741825 ≤ (List.replicate 2147483651 (9 : ℤ)).length ∧
    dot ([[1, 2], List.replicate 1073741825 3, List.replicate 2147483651 9] : Mem ℤ)
      0 2 1 1 1 1073741825 2 = none :=
  ⟨by decide, le_of_le_of_eq (by decide) (List.length_replicate _ _).symm,
    le_of_le_of_eq (by decide) (List.length_replicate _ _).symm,
    dot_overflow _ _ _ _ _ _ _ _ (by decide)⟩

/-- C18 amended: `dot` writes only the output matrix: whenever the call
returns, every buffer other than `res` (so `a` and `b` when `res` is distinct
from them) is unchanged, and `res` keeps its length and every cell at an
index `>= a_rows * b_cols`; and the call does return for `int` dimensions
when `a_cols = b_rows`, the three shapes have at most `INT_MAX` cells and the
buffers are large enough. -/
theorem dot_frame {α : Type} [Zero α] [Add α] [Mul α] (mem : Mem α)
    (m1 a_rows a_cols m2 b_rows b_cols res : Nat) :
    (∀ mem', dot mem m1 a_rows a_cols m2 b_rows b_cols res = some mem' →
      (∀ p, p ≠ res → mem'[p]? = mem[p]?) ∧
      (∀ r0, mem[res]? = some r0 →
        ∃ out, mem'[res]? = some out ∧ out.length = r0.length ∧
          ∀ i, a_rows * b_cols ≤ i → out[i]? = r0[i]?)) ∧
    (∀ a b r0, mem[m1]? = some a → mem[m2]? = some b → mem[res]? = some r0 →
      a_rows ≤ INT_MAX ∧ a_cols ≤ INT_MAX ∧ b_rows ≤ INT_MAX ∧ b_cols ≤ INT_MAX →
      a_cols = b_rows → a_rows * a_cols ≤ a.length → b_rows * b_cols ≤ b.length →
      a_rows * b_cols ≤ r0.length →
      a_rows * a_cols ≤ INT_MAX → b_rows * b_cols ≤ INT_MAX → a_rows * b_cols ≤ INT_MAX →
      ∃ mem', dot mem m1 a_rows a_cols m2 b_rows b_cols res = some mem') := by
  constructor
  · intro mem' h
    exact frame_of_dot_some mem mem' m1 a_rows a_cols m2 b_rows b_cols res h
  · intro a b r0 ha hb hr _ hdim hla hlb hlr hsa hsb hsr
    obtain ⟨mem', hrun, _⟩ := dot_returns mem m1 a_rows a_cols m2 b_rows b_cols res a b r0
      ha hb hr (le_of_eq hdim.symm) hla hlb hlr hsa hsb hsr
    exact ⟨mem', hrun⟩

/-- Witness of C18: a 1 by 2 times 2 by 1 product into a buffer of three cells;
the inputs and the two cells past the output are kept. -/
theorem dot_frame_witness :
    ∃ mem', dot ([[1, 2], [3, 4], [0, 8, 9]] : Mem ℤ) 0 1 2 1 2 1 2 = some mem' ∧
      (∀ p, p ≠ 2 → mem'[p]? = ([[1, 2], [3, 4], [0, 8, 9]] : Mem ℤ)[p]?) ∧
      ∃ out, mem'[2]? = some out ∧ out.length = ([0, 8, 9] : List ℤ).length ∧
        ∀ i, 1 * 1 ≤ i → out[i]? = ([0, 8, 9] : List ℤ)[i]? := by
  have h := dot_frame ([[1, 2], [3, 4], [0, 8, 9]] : Mem ℤ) 0 1 2 1 2 1 2
  obtain ⟨mem', hrun⟩ := h.2 [1, 2] [3, 4] [0, 8, 9] rfl rfl rfl (by decide) rfl
    (by decide) (by decide) (by decide) (by decide) (by decide) (by decide)
  exact ⟨mem', hrun, (h.1 mem' hrun).1, (h.1 mem' hrun).2 [0, 8, 9] rfl⟩

/-- C19 as stated fails: for 2 by 1073741825 matrices the index
`row * cols + col` exceeds `INT_MAX`, so `add(A, B)` has undefined behaviour
and there is no sum to subtract `B` from; the same holds for `sub(A, B)`. -/
theorem sub_add_roundtrip_counterexample :
    (List.replicate 2147483650 (1 : ℤ)).length = 2 * 1073741825 ∧
    (List.replicate 2147483650 (2 : ℤ)).length = 2 * 1073741825 ∧
    addBuf (List.replicate 2147483650 (1 : ℤ)) 2 1073741825 (List.replicate 2147483650 2)
      (List.replicate 2147483650 0) = none ∧
    subBuf (List.replicate 2147483650 (1 : ℤ)) 2 1073741825 (List.replicate 2147483650 2)
      (List.replicate 2147483650 0) = none :=
  ⟨(List.length_replicate _ _).trans (by decide),
    (List.length_replicate _ _).trans (by decide),
    addBuf_overflow _ _ _ _ _ (by decide), subBuf_overflow _ _ _ _ _ (by decide)⟩

/-- C19 amended: subtraction undoes addition, over exact numbers and for
`int` dimensions with `rows * cols <= INT_MAX`: for same-shaped `rows` by
`cols` matrices `A` and `B`, `sub(add(A,B), B)` leaves the first
`rows * cols` cells of the result equal to `A`, and `add(sub(A,B), B)`
likewise; all the calls return. -/
theorem sub_add_roundtrip {α : Type} [AddGroup α] (rows cols : Nat)
    (A B r1 r2 r3 r4 : List α)
    (_hint : rows ≤ INT_MAX ∧ cols ≤ INT_MAX)
    (hA : A.length = rows * cols) (hB : B.length = rows * cols)
    (h1 : rows * cols ≤ r1.length) (h2 : rows * cols ≤ r2.length)
    (h3 : rows * cols ≤ r3.length) (h4 : rows * cols ≤ r4.length)
    (hs : rows * cols ≤ INT_MAX) :
    (∃ s out, addBuf A rows cols B r1 = some s ∧ subBuf s rows cols B r2 = some out ∧
      ∀ i, i < rows * cols → out[i]? = A[i]?) ∧
    (∃ d out, subBuf A rows cols B r3 = some d ∧ addBuf d rows cols B r4 = some out ∧
      ∀ i, i < rows * cols → out[i]? = A[i]?) := by
  constructor
  · obtain ⟨s, hs1, ls, vs, _⟩ := addBuf_spec A rows cols B r1
      (le_of_eq hA.symm) (le_of_eq hB.symm) h1 hs
    obtain ⟨out, ho, _, vo, _⟩ := subBuf_spec s rows cols B r2 (by omega)
      (le_of_eq hB.symm) h2 hs
    refine ⟨s, out, hs1, ho, fun i hi => ?_⟩
    obtain ⟨hrow, hcol, he⟩ := idx_decode hi
    rw [← he, vo _ _ hrow hcol, getD_of_getElem? (vs _ _ hrow hcol), add_sub_cancel_right,
      getElem?_eq_some_getD 0 (by rw [hA, he]; exact hi)]
  · obtain ⟨d, hd, ld, vd, _⟩ := subBuf_spec A rows cols B r3
      (le_of_eq hA.symm) (le_of_eq hB.symm) h3 hs
    obtain ⟨out, ho, _, vo, _⟩ := addBuf_spec d rows cols B r4 (by omega)
      (le_of_eq hB.symm) h4 hs
    refine ⟨d, out, hd, ho, fun i hi => ?_⟩
    obtain ⟨hrow, hcol, he⟩ := idx_decode hi
    rw [← he, vo _ _ hrow hcol, getD_of_getElem? (vd _ _ hrow hcol), sub_add_cancel,
      getElem?_eq_some_getD 0 (by rw [hA, he]; exact hi)]

/-- Witness of C19: two 2 by 1 matrices. -/
theorem sub_add_roundtrip_witness :
    (∃ s out, addBuf ([1, 2] : List ℤ) 2 1 [5, 6] [0, 0] = some s ∧
      subBuf s 2 1 ([5, 6] : List ℤ) [0, 0] = some out ∧
      ∀ i, i < 2 * 1 → out[i]? = ([1, 2] : List ℤ)[i]?) ∧
    (∃ d out, subBuf ([1, 2] : List ℤ) 2 1 [5, 6] [0, 0] = some d ∧
      addBuf d 2 1 ([5, 6] : List ℤ) [0, 0] = some out ∧
      ∀ i, i < 2 * 1 → out[i]? = ([1, 2] : List ℤ)[i]?) :=
  sub_add_roundtrip 2 1 [1, 2] [5, 6] [0, 0] [0, 0] [0, 0] [0, 0]
    (by decide) (by decide) (by decide) (by decide) (by decide) (by decide) (by decide)
    (by decide)

/-- C20: the no-aliasing precondition of `dot` is necessary: for the 2 by 2
matrices `A = [1,2,3,4]` and `B = [5,6,7,8]`, `dot` called with the result
being the very buffer of `A` leaves `[19,130,43,290]` there, while the
product computed into a separate buffer is `[19,22,43,50]`; the cell
`130 = 19 * 6 + 2 * 8` re-reads the cell `19` written for the first column. -/
theorem dot_inplace_differs :
    dot ([[1, 2, 3, 4], [5, 6, 7, 8]] : Mem ℤ) 0 2 2 1 2 2 0
      = some [[19, 130, 43, 290], [5, 6, 7, 8]] ∧
    dotBuf ([1, 2, 3, 4] : List ℤ) 2 2 [5, 6, 7, 8] 2 2 [0, 0, 0, 0]
      = some [19, 22, 43, 50] ∧
    ([19, 130, 43, 290] : List ℤ) ≠ [19, 22, 43, 50] ∧
    (130 : ℤ) = 19 * 6 + 2 * 8 := by
  refine ⟨by decide, by decide, by decide, by decide⟩

end MatrixKernel
